import Mathlib

/-!
Verification of the JSON key-deduplication / key-sorting engine of
prettier-rm-duplicate-json-keys.

Strings are modelled as lists of characters (`Str`); the JavaScript string
relational operator `<` is code-unit lexicographic comparison, modelled by
`strLtb`.  JavaScript `Array.prototype.sort` is modelled by `jsSort`, a
stable insertion sort that places each element at the leftmost position at
which it compares strictly less than the resident element — this is the
stable order mandated by ECMAScript for consistent comparators, and it also
matches the binary-insertion placement used by V8's TimSort when the
comparator is inconsistent.

JSON value trees are modelled by `Json`; an object is an ordered list of
(key, value) pairs, which may carry duplicate keys when it stands for the
*textual* form of a document.  `jsParse` models the duplicate-key collapse
performed by ECMAScript `JSON.parse` (last occurrence value wins, first
occurrence position kept).
-/

namespace RmDupJson

/-- A JavaScript string: list of characters (code units; the documents in
question are ASCII, where code-unit and code-point order agree). -/
abbrev Str := List Char

/-- JS string `<`: code-unit lexicographic order. Modelled from the spec:
the host language's built-in string relational comparison used by
`lexicalSort` and the tie fallback of `numericSort`. -/
def strLtb : Str → Str → Bool
  | [], [] => false
  | [], _ :: _ => true
  | _ :: _, [] => false
  | a :: as, b :: bs => if a < b then true else if b < a then false else strLtb as bs

/-- ASCII decimal digit test, the character class of the source's
`/^(\d+)/u` regular expression. -/
def digitB (c : Char) : Bool := decide ('0' ≤ c) && decide (c ≤ '9')

/-- Decimal value of a digit run, as computed by `parseInt(_, 10)`. -/
def digitsToNat (ds : Str) : Nat := ds.foldl (fun n c => 10 * n + (c.toNat - 48)) 0

/-- `s.match(/^(\d+)/u)` followed by `parseInt`: the value of the leading
run of ASCII digits, or `none` when the string does not start with a digit. -/
def numPrefixVal (s : Str) : Option Nat :=
  let ds := s.takeWhile digitB
  if ds = [] then none else some (digitsToNat ds)

/-- ASCII lower-casing, modelling `String.prototype.toLowerCase` on the
ASCII keys in question. -/
def lowerStr (s : Str) : Str := s.map Char.toLower

/-- A key comparator, as passed to `Array.prototype.sort`. -/
abbrev Cmp := Str → Str → Int

/-- `lexicalSort` from the source: sign-encoded string comparison. -/
def lexicalSort (a b : Str) : Int :=
  if strLtb b a then 1 else if strLtb a b then -1 else 0

/-- The shared final line of `numericSort`:
`String(a) > String(b) ? 1 : -1`. -/
def numFallback (a b : Str) : Int := if strLtb b a then 1 else -1

/-- `numericSort` from the source: keys that both start with a digit run
are compared by the numeric value of that run; when those values are equal,
or either key lacks a digit prefix, the whole strings are compared, the tie
degraded to `-1`. -/
def numericSort (a b : Str) : Int :=
  match numPrefixVal a, numPrefixVal b with
  | some pa, some pb => if pa = pb then numFallback a b else (pa : Int) - (pb : Int)
  | _, _ => numFallback a b

/-- `reverseSort` from the source: negates the wrapped comparator. -/
def reverseSort (f : Cmp) : Cmp := fun a b => -1 * f a b

/-- `caseInsensitiveSort` from the source:
`sortFunction(a.toLowerCase(), b.toLowerCase()) || sortFunction(a, b)`
(JS `||` falls through exactly when the first comparison is `0`). -/
def caseInsensitiveSort (f : Cmp) : Cmp := fun a b =>
  let v := f (lowerStr a) (lowerStr b)
  if v = 0 then f a b else v

/-- `noneSort` from the source: always `0`. -/
def noneSort : Cmp := fun _ _ => 0

/-- The `categorySortFunctions` registry: policy identifier to comparator. -/
def categorySortFunctions : String → Option Cmp
  | "caseInsensitiveLexical" => some (caseInsensitiveSort lexicalSort)
  | "caseInsensitiveNumeric" => some (caseInsensitiveSort numericSort)
  | "caseInsensitiveReverseLexical" => some (caseInsensitiveSort (reverseSort lexicalSort))
  | "caseInsensitiveReverseNumeric" => some (caseInsensitiveSort (reverseSort numericSort))
  | "lexical" => some lexicalSort
  | "numeric" => some numericSort
  | "reverseLexical" => some (reverseSort lexicalSort)
  | "reverseNumeric" => some (reverseSort numericSort)
  | "none" => some noneSort
  | _ => none

/-- `createSortFunction` of the part_001 engines: absent or empty (falsy)
policy, and any unknown identifier, fall back to `lexicalSort`. -/
def createSortFunction (sortOrder : Option String) : Cmp :=
  match sortOrder with
  | none => lexicalSort
  | some "" => lexicalSort
  | some s => (categorySortFunctions s).getD lexicalSort

/-- One step of the `jsSort` model: place `x` at the leftmost position at
which it compares strictly less than the element already there. -/
def insertSorted {α : Type} (f : α → α → Int) (x : α) : List α → List α
  | [] => [x]
  | y :: ys => if f x y < 0 then x :: y :: ys else y :: insertSorted f x ys

/-- Model of `Array.prototype.sort(f)` (see the file header). -/
def jsSort {α : Type} (f : α → α → Int) (l : List α) : List α :=
  l.foldl (fun acc x => insertSorted f x acc) []

/-- A JSON value tree.  An object is an ordered pair list; duplicate keys
are representable so that the textual form of a document (before
`JSON.parse`) can be expressed. -/
inductive Json where
  | null : Json
  | bool : Bool → Json
  | num : Int → Json
  | str : Str → Json
  | arr : List Json → Json
  | obj : List (Str × Json) → Json

mutual

/-- Decidable equality of JSON values (hand-rolled: the nested `List`
occurrences defeat the automatic derivation). -/
def Json.deq : (a b : Json) → Decidable (a = b)
  | .null, .null => isTrue rfl
  | .bool x, .bool y =>
      match decEq x y with
      | isTrue h => isTrue (by rw [h])
      | isFalse h => isFalse (fun hh => h (Json.bool.inj hh))
  | .num x, .num y =>
      match decEq x y with
      | isTrue h => isTrue (by rw [h])
      | isFalse h => isFalse (fun hh => h (Json.num.inj hh))
  | .str x, .str y =>
      match decEq x y with
      | isTrue h => isTrue (by rw [h])
      | isFalse h => isFalse (fun hh => h (Json.str.inj hh))
  | .arr x, .arr y =>
      match Json.deqList x y with
      | isTrue h => isTrue (by rw [h])
      | isFalse h => isFalse (fun hh => h (Json.arr.inj hh))
  | .obj x, .obj y =>
      match Json.deqPairs x y with
      | isTrue h => isTrue (by rw [h])
      | isFalse h => isFalse (fun hh => h (Json.obj.inj hh))
  | .null, .bool _ => isFalse (by simp)
  | .null, .num _ => isFalse (by simp)
  | .null, .str _ => isFalse (by simp)
  | .null, .arr _ => isFalse (by simp)
  | .null, .obj _ => isFalse (by simp)
  | .bool _, .null => isFalse (by simp)
  | .bool _, .num _ => isFalse (by simp)
  | .bool _, .str _ => isFalse (by simp)
  | .bool _, .arr _ => isFalse (by simp)
  | .bool _, .obj _ => isFalse (by simp)
  | .num _, .null => isFalse (by simp)
  | .num _, .bool _ => isFalse (by simp)
  | .num _, .str _ => isFalse (by simp)
  | .num _, .arr _ => isFalse (by simp)
  | .num _, .obj _ => isFalse (by simp)
  | .str _, .null => isFalse (by simp)
  | .str _, .bool _ => isFalse (by simp)
  | .str _, .num _ => isFalse (by simp)
  | .str _, .arr _ => isFalse (by simp)
  | .str _, .obj _ => isFalse (by simp)
  | .arr _, .null => isFalse (by simp)
  | .arr _, .bool _ => isFalse (by simp)
  | .arr _, .num _ => isFalse (by simp)
  | .arr _, .str _ => isFalse (by simp)
  | .arr _, .obj _ => isFalse (by simp)
  | .obj _, .null => isFalse (by simp)
  | .obj _, .bool _ => isFalse (by simp)
  | .obj _, .num _ => isFalse (by simp)
  | .obj _, .str _ => isFalse (by simp)
  | .obj _, .arr _ => isFalse (by simp)

def Json.deqList : (a b : List Json) → Decidable (a = b)
  | [], [] => isTrue rfl
  | [], _ :: _ => isFalse (by simp)
  | _ :: _, [] => isFalse (by simp)
  | x :: xs, y :: ys =>
      match Json.deq x y, Json.deqList xs ys with
      | isTrue h1, isTrue h2 => isTrue (by rw [h1, h2])
      | isFalse h1, _ => isFalse (fun hh => h1 (List.cons.inj hh).1)
      | _, isFalse h2 => isFalse (fun hh => h2 (List.cons.inj hh).2)

def Json.deqPairs : (a b : List (Str × Json)) → Decidable (a = b)
  | [], [] => isTrue rfl
  | [], _ :: _ => isFalse (by simp)
  | _ :: _, [] => isFalse (by simp)
  | (k, v) :: xs, (k', v') :: ys =>
      match decEq k k', Json.deq v v', Json.deqPairs xs ys with
      | isTrue h0, isTrue h1, isTrue h2 => isTrue (by rw [h0, h1, h2])
      | isFalse h0, _, _ =>
          isFalse (fun hh => h0 (congrArg Prod.fst (List.cons.inj hh).1))
      | _, isFalse h1, _ =>
          isFalse (fun hh => h1 (congrArg Prod.snd (List.cons.inj hh).1))
      | _, _, isFalse h2 => isFalse (fun hh => h2 (List.cons.inj hh).2)

end

instance : DecidableEq Json := Json.deq

/-- `typeof v === 'object' && v !== null` for a parsed JSON value:
true exactly for objects and arrays. -/
def isObjType : Json → Bool
  | .obj _ => true
  | .arr _ => true
  | _ => false

/-- Property assignment `o[k] = v` on an ordered pair list: an existing key
keeps its position and gets the new value, a new key is appended. -/
def upsert (k : Str) (v : Json) : List (Str × Json) → List (Str × Json)
  | [] => [(k, v)]
  | (k', v') :: rest => if k' = k then (k, v) :: rest else (k', v') :: upsert k v rest

mutual

/-- Model of ECMAScript `JSON.parse` applied to the textual document:
within each object the later of two equal keys overwrites the value of the
earlier while the earlier's position is kept, so the surviving value of a
duplicated key is the LAST occurrence's. -/
def jsParse : Json → Json
  | .arr vs => .arr (jsParseList vs)
  | .obj ps => .obj (jsParseFold [] ps)
  | .null => .null
  | .bool b => .bool b
  | .num n => .num n
  | .str s => .str s

def jsParseList : List Json → List Json
  | [] => []
  | v :: vs => jsParse v :: jsParseList vs

def jsParseFold (acc : List (Str × Json)) : List (Str × Json) → List (Str × Json)
  | [] => acc
  | (k, v) :: rest => jsParseFold (upsert k (jsParse v) acc) rest

end

/-- Key list of an object's pair list. -/
def keysOf (ps : List (Str × Json)) : List Str := ps.map Prod.fst

/-- Boolean duplicate-freedom of a key list. -/
def nodupB : List Str → Bool
  | [] => true
  | k :: ks => !(ks.contains k) && nodupB ks

mutual

/-- Hereditary duplicate-freedom: every object of the tree has pairwise
distinct keys.  Every value produced by `JSON.parse` satisfies this. -/
def huniq : Json → Bool
  | .arr vs => huniqList vs
  | .obj ps => nodupB (keysOf ps) && huniqPairs ps
  | _ => true

def huniqList : List Json → Bool
  | [] => true
  | v :: vs => huniq v && huniqList vs

def huniqPairs : List (Str × Json) → Bool
  | [] => true
  | (_, v) :: rest => huniq v && huniqPairs rest

end

/-- First-match key lookup, the semantics of JS property access on the
(unique-keyed) objects produced by parsing. -/
def lookupKey (k : Str) : List (Str × Json) → Option Json
  | [] => none
  | (k', v) :: rest => if k' = k then some v else lookupKey k rest

/-- A navigation step into a JSON tree: object member or array index. -/
inductive PathStep where
  | key : Str → PathStep
  | idx : Nat → PathStep
deriving DecidableEq

/-- Follow a path of member/index steps through a JSON tree. -/
def getPath : Json → List PathStep → Option Json
  | v, [] => some v
  | .obj ps, .key k :: p =>
      match lookupKey k ps with
      | some v => getPath v p
      | none => none
  | .arr vs, .idx i :: p =>
      match vs[i]? with
      | some v => getPath v p
      | none => none
  | _, _ :: _ => none

/-- `Object.keys(v)` together with the associated values, as the variant-A
`deduplicateObject` walk sees them: an object exposes its pairs, an ARRAY
exposes its index strings as keys, a primitive exposes nothing. -/
def natToStr (n : Nat) : Str := Nat.toDigits 10 n

mutual

/-- `deduplicateObject` of the first (seen-set) engine in part_001: walks
`Object.keys`, skips keys already in the GLOBAL `seen` set, threads `seen`
through nested object/array walks (so the set is shared across scopes),
and always rebuilds into a plain object — an array input is rebuilt as an
object keyed by its index strings.  Returns the rebuilt pair list and the
grown seen set. -/
def dedupA : Json → List Str → (List (Str × Json) × List Str)
  | .obj ps, seen => dedupAPairs ps seen
  | .arr vs, seen => dedupAArr vs 0 seen
  | _, seen => ([], seen)

def dedupAPairs : List (Str × Json) → List Str → (List (Str × Json) × List Str)
  | [], seen => ([], seen)
  | (k, v) :: rest, seen =>
      if seen.contains k then dedupAPairs rest seen
      else
        if isObjType v then
          let inner := dedupA v (k :: seen)
          let tail := dedupAPairs rest inner.2
          ((k, Json.obj inner.1) :: tail.1, tail.2)
        else
          let tail := dedupAPairs rest (k :: seen)
          ((k, v) :: tail.1, tail.2)

def dedupAArr : List Json → Nat → List Str → (List (Str × Json) × List Str)
  | [], _, seen => ([], seen)
  | v :: vs, i, seen =>
      let k := natToStr i
      if seen.contains k then dedupAArr vs (i + 1) seen
      else
        if isObjType v then
          let inner := dedupA v (k :: seen)
          let tail := dedupAArr vs (i + 1) inner.2
          ((k, Json.obj inner.1) :: tail.1, tail.2)
        else
          let tail := dedupAArr vs (i + 1) (k :: seen)
          ((k, v) :: tail.1, tail.2)

end

mutual

/-- `sortObject` of the variant-A engine: arrays are mapped element-wise
(objects/arrays recursed, primitives kept), anything else goes through the
`Object.keys(...).sort(f)` path — so a primitive, whose key set is empty,
comes back as the empty object.  The source sorts the key list first and
then rebuilds, recursing into each looked-up value; since sorting touches
only keys and recursion touches only values, this equals recursing into the
values first and then sorting the pairs by key, which is how it is written
here to keep the recursion structural. -/
def sortA (f : Cmp) : Json → Json
  | .arr vs => .arr (sortAList f vs)
  | .obj ps => .obj (jsSort (fun x y => f x.1 y.1) (sortAPairs f ps))
  | _ => .obj []

def sortAList (f : Cmp) : List Json → List Json
  | [] => []
  | v :: vs => (if isObjType v then sortA f v else v) :: sortAList f vs

def sortAPairs (f : Cmp) : List (Str × Json) → List (Str × Json)
  | [] => []
  | (k, v) :: rest =>
      (k, if isObjType v then sortA f v else v) :: sortAPairs f rest

end

/-- The variant-A `processJson`, at the level of parsed values: parse the
text, deduplicate with one global seen set, then sort. -/
def processJsonAVal (sortOrder : Option String) (doc : Json) : Json :=
  sortA (createSortFunction sortOrder) (.obj (dedupA (jsParse doc) []).1)

mutual

/-- `deduplicateObject` of the filePattern engine (variant C in part_001):
arrays are mapped element-wise with a FRESH seen set for each nested
object, primitives pass through, and each object deduplicates its own pair
list against a seen set local to that object. -/
def dedupC : Json → Json
  | .arr vs => .arr (dedupCList vs)
  | .obj ps => .obj (dedupCPairs ps [])
  | .null => .null
  | .bool b => .bool b
  | .num n => .num n
  | .str s => .str s

def dedupCList : List Json → List Json
  | [] => []
  | v :: vs => (if isObjType v then dedupC v else v) :: dedupCList vs

def dedupCPairs : List (Str × Json) → List Str → List (Str × Json)
  | [], _ => []
  | (k, v) :: rest, seen =>
      if seen.contains k then dedupCPairs rest seen
      else (k, if isObjType v then dedupC v else v) :: dedupCPairs rest (k :: seen)

end

mutual

/-- `sortObject` of the filePattern engine: arrays are mapped element-wise
(order untouched), primitives pass through, each object's pairs are sorted
by key and the values recursed (always recursively; the engine never
consults `jsonRecursiveSort`).  As with `sortA`, recursion into values is
done before the key sort, which the source does after — the two orders
produce the same tree. -/
def sortObjC (f : Cmp) : Json → Json
  | .arr vs => .arr (sortObjCList f vs)
  | .obj ps => .obj (jsSort (fun x y => f x.1 y.1) (sortObjCPairs f ps))
  | .null => .null
  | .bool b => .bool b
  | .num n => .num n
  | .str s => .str s

def sortObjCList (f : Cmp) : List Json → List Json
  | [] => []
  | v :: vs => (if isObjType v then sortObjC f v else v) :: sortObjCList f vs

def sortObjCPairs (f : Cmp) : List (Str × Json) → List (Str × Json)
  | [] => []
  | (k, v) :: rest =>
      (k, if isObjType v then sortObjC f v else v) :: sortObjCPairs f rest

end

/-- One compiled atom of the glob-to-regex translation in
`matchesFilePattern`: a literal character (`.` is escaped to a literal),
`?` → any single character, `*` → `[^/]*`, `**` → `.*`. -/
inductive GlobAtom where
  | lit : Char → GlobAtom
  | anyChar : GlobAtom
  | starSeg : GlobAtom
  | starAll : GlobAtom
deriving DecidableEq

/-- Compile one comma-separated glob into its atom sequence, mirroring the
replace chain of the source (`.` escaped, `**` before `*`, `?` last). -/
def globCompile : Str → List GlobAtom
  | [] => []
  | '*' :: '*' :: rest => .starAll :: globCompile rest
  | '*' :: rest => .starSeg :: globCompile rest
  | '?' :: rest => .anyChar :: globCompile rest
  | c :: rest => .lit c :: globCompile rest

/-- Backtracking matcher for the compiled atoms against a string starting
at its head; the regex is unanchored, so a fully consumed pattern matches
whatever remains.  Every recursive call shrinks `ats.length + s.length`,
so the structural fuel argument — always supplied as that sum plus one —
never runs out. -/
def globMatchFuel : Nat → List GlobAtom → Str → Bool
  | 0, _, _ => false
  | fuel + 1, ats, s =>
      match ats, s with
      | [], _ => true
      | .lit c :: ats', d :: ds => c = d && globMatchFuel fuel ats' ds
      | .lit _ :: _, [] => false
      | .anyChar :: ats', _ :: ds => globMatchFuel fuel ats' ds
      | .anyChar :: _, [] => false
      | .starSeg :: ats', s' =>
          globMatchFuel fuel ats' s' ||
            (match s' with
             | d :: ds => !(d = '/') && globMatchFuel fuel (.starSeg :: ats') ds
             | [] => false)
      | .starAll :: ats', s' =>
          globMatchFuel fuel ats' s' ||
            (match s' with
             | _ :: ds => globMatchFuel fuel (.starAll :: ats') ds
             | [] => false)

/-- Match the compiled atoms at the head of the string. -/
def globMatchHere (ats : List GlobAtom) (s : Str) : Bool :=
  globMatchFuel (ats.length + s.length + 1) ats s

/-- `RegExp.prototype.test` of the compiled (unanchored) pattern: try a
match at every start position. -/
def globSearch (ats : List GlobAtom) : Str → Bool
  | [] => globMatchHere ats []
  | c :: ds => globMatchHere ats (c :: ds) || globSearch ats ds

/-- Split a pattern list on commas (`pattern.split(',')`). -/
def splitComma : Str → List Str
  | [] => [[]]
  | ',' :: rest => [] :: splitComma rest
  | c :: rest =>
      match splitComma rest with
      | p :: ps => (c :: p) :: ps
      | [] => [[c]]

/-- JS whitespace test for `String.prototype.trim` (ASCII fragment). -/
def isWsChar (c : Char) : Bool := c = ' ' || c = '\t' || c = '\n' || c = '\r'

/-- `String.prototype.trim`. -/
def trimStr (s : Str) : Str :=
  ((s.dropWhile isWsChar).reverse.dropWhile isWsChar).reverse

/-- `matchesFilePattern` from the filePattern engine: empty pattern or
empty path match trivially; otherwise any comma-separated sub-pattern that
the compiled regex finds anywhere in the path counts as a match. -/
def matchesFilePattern (filepath pattern : Str) : Bool :=
  if pattern = [] || filepath = [] then true
  else (splitComma pattern).any fun p => globSearch (globCompile (trimStr p)) filepath

/-- The filePattern engine's `processJson`, at the level of parsed values:
a configured pattern that the path does not match short-circuits into the
re-serialization of the parsed text (so `JSON.parse` still runs);
otherwise the text is parsed, deduplicated per scope and sorted. -/
def processJsonCVal (filepath pattern : Str) (sortOrder : Option String) (doc : Json) : Json :=
  if pattern ≠ [] && !matchesFilePattern filepath pattern then jsParse doc
  else sortObjC (createSortFunction sortOrder) (dedupC (jsParse doc))

mutual

/-- `sortAst` from sort.ts, on the JSON fragment of the Babel AST (an
`ObjectExpression` is a property list that may carry duplicate keys; keys
are string literals).  Arrays are descended only in recursive mode and
never reordered; an object's properties are sorted by key, and in
recursive mode its object/array values are descended.  As with the other
sorters, value recursion is written before the key sort; the source sorts
first and recurses after, with the same result. -/
def sortAst (recursive : Bool) (f : Cmp) : Json → Json
  | .arr vs => if recursive then .arr (sortAstList recursive f vs) else .arr vs
  | .obj ps =>
      .obj (jsSort (fun x y => f x.1 y.1)
        (if recursive then sortAstPairs recursive f ps else ps))
  | .null => .null
  | .bool b => .bool b
  | .num n => .num n
  | .str s => .str s

def sortAstList (recursive : Bool) (f : Cmp) : List Json → List Json
  | [] => []
  | v :: vs => sortAst recursive f v :: sortAstList recursive f vs

def sortAstPairs (recursive : Bool) (f : Cmp) : List (Str × Json) → List (Str × Json)
  | [] => []
  | (k, v) :: rest =>
      (k, if isObjType v then sortAst recursive f v else v) :: sortAstPairs recursive f rest

end

/-- Quote a key or string value for serialization (the documents in play
contain no characters needing escapes). -/
def quoteStr (s : Str) : String := "\"" ++ String.mk s ++ "\""

mutual

/-- Model of `JSON.stringify(v, null, 2)`: two-space indented printing,
`ind` being the indentation of the enclosing container. -/
def stringifyV (ind : String) : Json → String
  | .null => "null"
  | .bool true => "true"
  | .bool false => "false"
  | .num n => toString n
  | .str s => quoteStr s
  | .arr [] => "[]"
  | .arr (v :: vs) =>
      "[\n" ++ stringifyItems (ind ++ "  ") (v :: vs) ++ "\n" ++ ind ++ "]"
  | .obj [] => "\x7b\x7d"
  | .obj (p :: ps) =>
      "\x7b\n" ++ stringifyPairs (ind ++ "  ") (p :: ps) ++ "\n" ++ ind ++ "\x7d"

def stringifyItems (ind : String) : List Json → String
  | [] => ""
  | [v] => ind ++ stringifyV ind v
  | v :: vs => ind ++ stringifyV ind v ++ ",\n" ++ stringifyItems ind vs

def stringifyPairs (ind : String) : List (Str × Json) → String
  | [] => ""
  | [(k, v)] => ind ++ quoteStr k ++ ": " ++ stringifyV ind v
  | (k, v) :: ps =>
      ind ++ quoteStr k ++ ": " ++ stringifyV ind v ++ ",\n" ++ stringifyPairs ind ps

end

/-- `JSON.stringify(v, null, 2)`. -/
def jsonStringify (v : Json) : String := stringifyV "" v

/-- The variant-A `processJson`, at the level of the returned text. -/
def processJsonAText (sortOrder : Option String) (doc : Json) : String :=
  jsonStringify (processJsonAVal sortOrder doc)

/-- JSON whitespace. -/
def isJsonWs (c : Char) : Bool := c = ' ' || c = '\t' || c = '\n' || c = '\r'

/-- Skip JSON whitespace. -/
def skipWs (s : Str) : Str := s.dropWhile isJsonWs

/-- The opening brace character (written by code point to keep brace
characters out of the literals of this file). -/
def lbraceC : Char := Char.ofNat 123

/-- The closing brace character. -/
def rbraceC : Char := Char.ofNat 125

/-- Body of a JSON string literal after the opening quote; escape
sequences are outside the fragment exercised here. -/
def parseStrBody : Str → Option (Str × Str)
  | [] => none
  | '"' :: rest => some ([], rest)
  | '\\' :: _ => none
  | c :: rest => (parseStrBody rest).map fun cr => (c :: cr.1, cr.2)

/-- A JSON number token (integer fragment of the grammar). -/
def parseNumTok : Str → Option (Json × Str)
  | '-' :: rest =>
      let ds := rest.takeWhile digitB
      if ds = [] then none
      else some (.num (-(digitsToNat ds : Int)), rest.dropWhile digitB)
  | s =>
      let ds := s.takeWhile digitB
      if ds = [] then none
      else some (.num (digitsToNat ds : Int), s.dropWhile digitB)

mutual

/-- Recursive-descent model of ECMAScript `JSON.parse` (on the grammar
fragment exercised by this code: literals, integers, strings without
escapes, arrays, objects).  Object members accumulate through `upsert`, so
duplicate keys collapse exactly as in `JSON.parse`.  The fuel argument
only bounds nesting and is always supplied larger than the input length. -/
def parseVal : Nat → Str → Option (Json × Str)
  | 0, _ => none
  | fuel + 1, s =>
      match skipWs s with
      | 'n' :: 'u' :: 'l' :: 'l' :: rest => some (.null, rest)
      | 't' :: 'r' :: 'u' :: 'e' :: rest => some (.bool true, rest)
      | 'f' :: 'a' :: 'l' :: 's' :: 'e' :: rest => some (.bool false, rest)
      | '"' :: rest => (parseStrBody rest).map fun cr => (Json.str cr.1, cr.2)
      | '[' :: rest =>
          (match skipWs rest with
           | ']' :: rest2 => some (Json.arr [], rest2)
           | s2 => parseElems fuel [] s2)
      | c :: rest =>
          if c = lbraceC then
            match skipWs rest with
            | d :: rest2 =>
                if d = rbraceC then some (Json.obj [], rest2)
                else parseMembers fuel [] (d :: rest2)
            | [] => none
          else parseNumTok (c :: rest)
      | [] => none

def parseElems : Nat → List Json → Str → Option (Json × Str)
  | 0, _, _ => none
  | fuel + 1, acc, s =>
      match parseVal fuel s with
      | none => none
      | some (v, rest) =>
          match skipWs rest with
          | ',' :: rest2 => parseElems fuel (acc ++ [v]) rest2
          | ']' :: rest2 => some (.arr (acc ++ [v]), rest2)
          | _ => none

def parseMembers : Nat → List (Str × Json) → Str → Option (Json × Str)
  | 0, _, _ => none
  | fuel + 1, acc, s =>
      match skipWs s with
      | '"' :: rest =>
          match parseStrBody rest with
          | none => none
          | some (k, rest1) =>
              match skipWs rest1 with
              | ':' :: rest2 =>
                  (match parseVal fuel rest2 with
                   | none => none
                   | some (v, rest3) =>
                       match skipWs rest3 with
                       | ',' :: rest4 => parseMembers fuel (upsert k v acc) rest4
                       | c :: rest4 =>
                           if c = rbraceC then some (.obj (upsert k v acc), rest4) else none
                       | [] => none)
              | _ => none
      | _ => none

end

/-- `JSON.parse` applied to an option string: parse one value and require
only whitespace after it. -/
def jsonTextParse (s : String) : Option Json :=
  match parseVal (s.length + 1) s.data with
  | some (v, rest) => if skipWs rest = [] then some v else none
  | none => none

/-- The raw option values handed to sort.ts's `parseOptions` by the host
(untyped; `none` = option absent). -/
structure PrettierOpts where
  jsonRecursiveSort : Option Json
  jsonSortOrder : Option Json

/-- Is a custom-order entry allowed (`null` or a registry identifier)? -/
def allowedEntryB : Json → Bool
  | .null => true
  | .str s => (categorySortFunctions (String.mk s)).isSome
  | _ => false

/-- `parseOptions` from sort.ts: the recursive flag must be a boolean; an
explicitly supplied `jsonSortOrder` must be a string that parses as a JSON
object (parse failure and non-object parses are configuration errors) with
every member value `null` or a registry identifier. -/
def parseOptions (o : PrettierOpts) : Except String (Bool × Option String) :=
  match o.jsonRecursiveSort with
  | some (.bool b) =>
      match o.jsonSortOrder with
      | none => .ok (b, none)
      | some (.str s) =>
          match jsonTextParse (String.mk s) with
          | none => .error "Failed to parse sort order option as JSON"
          | some (.arr _) => .error "Invalid custom sort order; must be an object"
          | some (.obj ps) =>
              if ps.all (fun kv => allowedEntryB kv.2)
              then .ok (b, some (String.mk s))
              else .error "Invalid custom sort entry"
          | some .null => .error "TypeError: cannot convert null to object"
          | some _ => .error "Invalid custom sort order; must be an object"
      | some _ => .error "Invalid jsonSortOrder option; expected string"
  | _ => .error "Invalid jsonRecursiveSort option; expected boolean"

/-- `applyDefaultOptions` from sort.ts (`jsonSortOrder || 'lexical'`). -/
def applyDefaultOptions (p : Bool × Option String) : Bool × String :=
  (p.1, (p.2).getD "lexical")

/-- JS falsiness of a JSON value (for the `|| null` coercion of custom
order entries). -/
def falsyJson : Json → Bool
  | .null => true
  | .bool b => !b
  | .num n => n = 0
  | .str s => s = []
  | .arr _ => false
  | .obj _ => false

/-- `parsedJsonSortOrder[a] || null`: the member named by the key, with
falsy values coerced to the absent entry; member access on a non-object
parse result yields no entry. -/
def entryOf (parsed : Json) (k : Str) : Option Json :=
  match parsed with
  | .obj ps =>
      match lookupKey k ps with
      | some v => if falsyJson v then none else some v
      | none => none
  | _ => none

/-- `evaluateSortEntry` from sort.ts: the self-rank of a key under its
assigned category (absent entry ranks 0).  A non-string or unregistered
entry would raise a TypeError at compare time in the source; it is
unreachable behind `parseOptions` validation and modelled as rank 0. -/
def evaluateSortEntry (value : Str) (entry : Option Json) : Int :=
  match entry with
  | none => 0
  | some (.str s) =>
      match categorySortFunctions (String.mk s) with
      | some g => g value value
      | none => 0
  | some _ => 0

/-- `createSortCompareFunction` from sort.ts: a sort-order string that
parses as JSON becomes a custom-order comparator (self-rank difference,
ties broken lexically); a string that does not parse falls back to the
registry lookup of the raw string, unknown identifiers degrading to
`lexicalSort`. -/
def createSortCompareFunction (jsonSortOrder : String) : Cmp :=
  match jsonTextParse jsonSortOrder with
  | some parsed => fun a b =>
      let aR := evaluateSortEntry a (entryOf parsed a)
      let bR := evaluateSortEntry b (entryOf parsed b)
      if aR ≠ bR then aR - bR else lexicalSort a b
  | none => (categorySortFunctions jsonSortOrder).getD lexicalSort

mutual

/-- Hereditary case-folded duplicate-freedom: in every object of the tree,
the lower-casings of the keys are pairwise distinct.  (On such trees even
the case-insensitive comparators are consistent comparison functions.) -/
def hlowuniq : Json → Bool
  | .arr vs => hlowuniqList vs
  | .obj ps => nodupB ((keysOf ps).map lowerStr) && hlowuniqPairs ps
  | _ => true

def hlowuniqList : List Json → Bool
  | [] => true
  | v :: vs => hlowuniq v && hlowuniqList vs

def hlowuniqPairs : List (Str × Json) → Bool
  | [] => true
  | (_, v) :: rest => hlowuniq v && hlowuniqPairs rest

end

/-- Asymmetry of a comparator on a key list: among distinct listed keys,
`a before b` and `b before a` never both hold. -/
def AsymOn (f : Cmp) (ks : List Str) : Prop :=
  ∀ a ∈ ks, ∀ b ∈ ks, a ≠ b → f a b < 0 → ¬ f b a < 0

/-- Transitivity of a comparator's strict `before` relation on a key list. -/
def TransOn (f : Cmp) (ks : List Str) : Prop :=
  ∀ a ∈ ks, ∀ b ∈ ks, ∀ c ∈ ks, f a b < 0 → f b c < 0 → f a c < 0

mutual

/-- Hereditary consistency of a comparator over a JSON tree: on every
object's key list the comparator's `before` relation is asymmetric and
transitive (the precondition under which a JS sort is stable and
deterministic). -/
def CmpOk (f : Cmp) : Json → Prop
  | .arr vs => CmpOkList f vs
  | .obj ps => (AsymOn f (keysOf ps) ∧ TransOn f (keysOf ps)) ∧ CmpOkPairs f ps
  | _ => True

def CmpOkList (f : Cmp) : List Json → Prop
  | [] => True
  | v :: vs => CmpOk f v ∧ CmpOkList f vs

def CmpOkPairs (f : Cmp) : List (Str × Json) → Prop
  | [] => True
  | (_, v) :: rest => CmpOk f v ∧ CmpOkPairs f rest

end

/-! ### Order facts about the string comparison `strLtb` -/

theorem strLtb_irrefl : ∀ s : Str, strLtb s s = false
  | [] => rfl
  | c :: cs => by simp [strLtb, strLtb_irrefl cs]

theorem strLtb_asymm : ∀ {a b : Str}, strLtb a b = true → strLtb b a = false
  | [], [], h => by simp [strLtb] at h
  | [], _ :: _, _ => rfl
  | _ :: _, [], h => by simp [strLtb] at h
  | a :: as, b :: bs, h => by
      simp only [strLtb] at h ⊢
      rcases lt_trichotomy a b with h1 | h1 | h1
      · simp [h1, asymm h1]
      · subst h1
        simp only [lt_irrefl, if_false] at h ⊢
        exact strLtb_asymm h
      · simp [h1, asymm h1] at h

theorem strLtb_trans : ∀ {a b c : Str},
    strLtb a b = true → strLtb b c = true → strLtb a c = true
  | [], [], _, h1, _ => by simp [strLtb] at h1
  | [], _ :: _, [], _, h2 => by simp [strLtb] at h2
  | [], _ :: _, _ :: _, _, _ => rfl
  | _ :: _, [], _, h1, _ => by simp [strLtb] at h1
  | _ :: _, _ :: _, [], _, h2 => by simp [strLtb] at h2
  | a :: as, b :: bs, c :: cs, h1, h2 => by
      simp only [strLtb] at h1 h2 ⊢
      rcases lt_trichotomy a b with hab | hab | hab
      · rcases lt_trichotomy b c with hbc | hbc | hbc
        · have : a < c := lt_trans hab hbc
          simp [this]
        · subst hbc; simp [hab]
        · simp [hbc, asymm hbc] at h2
      · subst hab
        rcases lt_trichotomy a c with hac | hac | hac
        · simp [hac]
        · subst hac
          simp only [lt_irrefl, if_false] at h1 h2 ⊢
          exact strLtb_trans h1 h2
        · simp [hac, asymm hac] at h2
      · simp [hab, asymm hab] at h1

theorem strLtb_eq_of_nltb : ∀ {a b : Str},
    strLtb a b = false → strLtb b a = false → a = b
  | [], [], _, _ => rfl
  | [], _ :: _, h1, _ => by simp [strLtb] at h1
  | _ :: _, [], _, h2 => by simp [strLtb] at h2
  | a :: as, b :: bs, h1, h2 => by
      simp only [strLtb] at h1 h2
      rcases lt_trichotomy a b with hab | hab | hab
      · simp [hab] at h1
      · subst hab
        simp only [lt_irrefl, if_false] at h1 h2
        rw [strLtb_eq_of_nltb h1 h2]
      · simp [hab, asymm hab] at h2

theorem strLtb_connex {a b : Str} (h : a ≠ b) :
    strLtb a b = true ∨ strLtb b a = true := by
  cases hab : strLtb a b
  · cases hba : strLtb b a
    · exact absurd (strLtb_eq_of_nltb hab hba) h
    · exact Or.inr rfl
  · exact Or.inl rfl

theorem strLtb_nltb_trans {a b c : Str}
    (h1 : strLtb b a = false) (h2 : strLtb c b = false) : strLtb c a = false := by
  cases hca : strLtb c a
  · rfl
  · rcases lt_trichotomy_str : (rfl : (0:Nat) = 0) with _
    by_cases hbc : b = c
    · subst hbc; rw [hca] at h1; exact h1
    · rcases strLtb_connex hbc with hb | hb
      · have := strLtb_trans hb hca
        rw [this] at h1; exact h1
      · rw [hb] at h2; exact h2

/-! ### Facts about `lexicalSort` and `numericSort` -/

theorem lexicalSort_eq_zero_iff {a b : Str} : lexicalSort a b = 0 ↔ a = b := by
  constructor
  · intro h
    unfold lexicalSort at h
    by_cases h1 : strLtb b a = true
    · simp [h1] at h
    · by_cases h2 : strLtb a b = true
      · simp [h1, h2] at h
      · exact strLtb_eq_of_nltb (Bool.not_eq_true _ ▸ h2) (Bool.not_eq_true _ ▸ h1)
  · intro h
    subst h
    unfold lexicalSort
    simp [strLtb_irrefl]

theorem lexicalSort_neg_iff {a b : Str} : lexicalSort a b < 0 ↔ strLtb a b = true := by
  unfold lexicalSort
  by_cases h1 : strLtb b a = true
  · have := strLtb_asymm h1
    simp [h1, this]
  · by_cases h2 : strLtb a b = true
    · simp [h1, h2]
    · simp [h1, h2]

theorem numericSort_self (a : Str) : numericSort a a = -1 := by
  unfold numericSort numFallback
  cases h : numPrefixVal a <;> simp [strLtb_irrefl]

/-! ### Permutation, lookup and uniqueness machinery -/

instance : Inhabited Json := ⟨Json.null⟩

theorem containsB_iff (l : List Str) (k : Str) : l.contains k = true ↔ k ∈ l := by
  simp

theorem insertSorted_perm {α : Type} (f : α → α → Int) (x : α) :
    ∀ l : List α, (insertSorted f x l).Perm (x :: l)
  | [] => List.Perm.refl _
  | y :: ys => by
      unfold insertSorted
      by_cases h : f x y < 0
      · simp [h]
      · simp only [h, if_false]
        exact (List.Perm.cons y (insertSorted_perm f x ys)).trans (List.Perm.swap x y ys)

theorem jsSort_perm_aux {α : Type} (f : α → α → Int) :
    ∀ (l acc : List α), (l.foldl (fun a x => insertSorted f x a) acc).Perm (acc ++ l)
  | [], acc => by simp
  | x :: xs, acc => by
      have h1 := jsSort_perm_aux f xs (insertSorted f x acc)
      have hi : (insertSorted f x acc).Perm (x :: acc) := insertSorted_perm f x acc
      have h2 : (insertSorted f x acc ++ xs).Perm (acc ++ x :: xs) :=
        (hi.append_right xs).trans (List.perm_middle).symm
      simpa using h1.trans h2

theorem jsSort_perm {α : Type} (f : α → α → Int) (l : List α) :
    (jsSort f l).Perm l := by
  have := jsSort_perm_aux f l []
  simpa [jsSort] using this

theorem nodupB_iff : ∀ ks : List Str, nodupB ks = true ↔ ks.Nodup
  | [] => by simp [nodupB]
  | k :: ks => by
      simp [nodupB, nodupB_iff ks, List.nodup_cons]

theorem lookupKey_mem : ∀ {ps : List (Str × Json)} {k : Str} {v : Json},
    lookupKey k ps = some v → (k, v) ∈ ps
  | [], _, _, h => by simp [lookupKey] at h
  | (k', v') :: rest, k, v, h => by
      rw [lookupKey] at h
      split at h
      · rename_i he
        cases he
        cases h
        exact List.mem_cons_self _ _
      · exact List.mem_cons_of_mem _ (lookupKey_mem h)

theorem lookupKey_eq_none_iff : ∀ (ps : List (Str × Json)) (k : Str),
    lookupKey k ps = none ↔ k ∉ keysOf ps
  | [], k => by simp [lookupKey, keysOf]
  | (k', v') :: rest, k => by
      rw [lookupKey]
      by_cases he : k' = k
      · subst he
        simp [keysOf]
      · rw [if_neg he, lookupKey_eq_none_iff rest k]
        have : ¬ k = k' := fun hh => he hh.symm
        simp [keysOf, this]

theorem lookupKey_of_mem : ∀ {ps : List (Str × Json)} {k : Str} {v : Json},
    (keysOf ps).Nodup → (k, v) ∈ ps → lookupKey k ps = some v
  | [], _, _, _, h => by simp at h
  | (k', v') :: rest, k, v, hnd, h => by
      have hnd1 : (k' :: keysOf rest).Nodup := hnd
      have hnd' : ¬ k' ∈ keysOf rest ∧ (keysOf rest).Nodup := List.nodup_cons.mp hnd1
      rcases List.mem_cons.mp h with h1 | h1
      · rw [Prod.mk.injEq] at h1
        rw [lookupKey, if_pos h1.1.symm, h1.2]
      · have hk : ¬ (k' = k) := by
          intro he
          subst he
          exact hnd'.1 (List.mem_map_of_mem Prod.fst h1)
        rw [lookupKey, if_neg hk]
        exact lookupKey_of_mem hnd'.2 h1

theorem lookupKey_perm {ps qs : List (Str × Json)} (hp : ps.Perm qs)
    (hnd : (keysOf ps).Nodup) (k : Str) : lookupKey k ps = lookupKey k qs := by
  have hndq : (keysOf qs).Nodup := ((hp.map Prod.fst).nodup_iff).mp hnd
  cases hq : lookupKey k ps with
  | some v =>
      have : (k, v) ∈ qs := hp.mem_iff.mp (lookupKey_mem hq)
      rw [lookupKey_of_mem hndq this]
  | none =>
      rw [lookupKey_eq_none_iff] at hq
      have hout : k ∉ keysOf qs := by
        intro hin
        apply hq
        have : keysOf ps = List.map Prod.fst ps := rfl
        rw [this, (hp.map Prod.fst).mem_iff]
        exact hin
      rw [Eq.comm, lookupKey_eq_none_iff]
      exact hout

/-! ### Claim theorems (easy group) -/

/-- Claim C8, counterexample: `numericSort` applied to the same string
twice returns `-1`, not the `1` the claim states. -/
theorem C8_self_ce : numericSort ("x".data) ("x".data) = -1 ∧ ¬ ((-1 : Int) = 1) := by
  exact ⟨by decide, by decide⟩

/-- Claim C8 (amended): for every string `a`, the comparison
`numericSort(a, a)` falls through to the lexical tie fallback and returns
`-1` — encoding "a before b" — rather than `0`. -/
theorem C8_self_amended : ∀ a : Str, numericSort a a = -1 :=
  numericSort_self

/-- Claim C7: for every comparator `cmp` and all strings `a`, `b`, the
wrapper `caseInsensitiveSort cmp` returns `cmp(lower a, lower b)` whenever
that value is non-zero, and falls back to `cmp(a, b)` on the original-case
strings exactly when the folded comparison is `0`; in particular
`caseInsensitiveSort lexicalSort` agrees with `lexicalSort` on the folded
strings whenever the foldings differ. -/
theorem C7_ci_modifier (cmp : Cmp) (a b : Str) :
    (cmp (lowerStr a) (lowerStr b) ≠ 0 →
      caseInsensitiveSort cmp a b = cmp (lowerStr a) (lowerStr b)) ∧
    (cmp (lowerStr a) (lowerStr b) = 0 →
      caseInsensitiveSort cmp a b = cmp a b) ∧
    (lowerStr a ≠ lowerStr b →
      caseInsensitiveSort lexicalSort a b = lexicalSort (lowerStr a) (lowerStr b)) := by
  refine ⟨?_, ?_, ?_⟩
  · intro h
    simp [caseInsensitiveSort, h]
  · intro h
    simp [caseInsensitiveSort, h]
  · intro h
    have : lexicalSort (lowerStr a) (lowerStr b) ≠ 0 := fun hz =>
      h (lexicalSort_eq_zero_iff.mp hz)
    simp [caseInsensitiveSort, this]

/-- Claim C7, witness: the third part at `a = "B"`, `b = "a"`. -/
theorem C7_ci_modifier_witness :
    caseInsensitiveSort lexicalSort ("B".data) ("a".data) =
      lexicalSort (lowerStr ("B".data)) (lowerStr ("a".data)) :=
  (C7_ci_modifier lexicalSort ("B".data) ("a".data)).2.2 (by decide)

/-- Claim C1: evaluating the seen-set engine (variant A of part_001) on
the document `{"a":1,"b":2,"b":3}` with the default lexical policy.
`JSON.parse` collapses the duplicate key with the LAST value winning, so
the engine outputs `{"a":1,"b":3}` — not the `{"a":1,"b":2}` that the
claim (and the README) promise. -/
theorem C1_dup_last_wins :
    jsParse (.obj [("a".data, .num 1), ("b".data, .num 2), ("b".data, .num 3)]) =
      .obj [("a".data, .num 1), ("b".data, .num 3)] ∧
    processJsonAVal none
        (.obj [("a".data, .num 1), ("b".data, .num 2), ("b".data, .num 3)]) =
      .obj [("a".data, .num 1), ("b".data, .num 3)] ∧
    (Json.obj [("a".data, .num 1), ("b".data, .num 3)]) ≠
      .obj [("a".data, .num 1), ("b".data, .num 2)] := by
  refine ⟨by decide, by decide, by decide⟩

/-- Claim C4: evaluating the part_001 engine on
`{"b":1,"a":{"z":9,"y":8}}`: although `jsonRecursiveSort` defaults to
`false`, the engine (which never reads that option) also sorts the nested
object, turning `{"z":9,"y":8}` into `{"y":8,"z":9}`; by contrast sort.ts's
`sortAst` with `recursive = false` reorders only the top level and leaves
the nested object's key order untouched. -/
theorem C4_nonrecursive_violated :
    processJsonAVal none
        (.obj [("b".data, .num 1), ("a".data, .obj [("z".data, .num 9), ("y".data, .num 8)])]) =
      .obj [("a".data, .obj [("y".data, .num 8), ("z".data, .num 9)]), ("b".data, .num 1)] ∧
    sortAst false lexicalSort
        (.obj [("b".data, .num 1), ("a".data, .obj [("z".data, .num 9), ("y".data, .num 8)])]) =
      .obj [("a".data, .obj [("z".data, .num 9), ("y".data, .num 8)]), ("b".data, .num 1)] := by
  refine ⟨by decide, by decide⟩

/-- Claim C9: with `filePattern = "*.config.json"` and path `"a.json"`,
the pattern does not match, yet the engine's passthrough still runs the
document through `JSON.parse`/`JSON.stringify`, so the duplicate-keyed
document `{"b":2,"b":3}` comes back as `{"b":3}` — its duplicate keys are
NOT left untouched. -/
theorem C9_pattern_passthrough :
    matchesFilePattern ("a.json".data) ("*.config.json".data) = false ∧
    processJsonCVal ("a.json".data) ("*.config.json".data) none
        (.obj [("b".data, .num 2), ("b".data, .num 3)]) =
      .obj [("b".data, .num 3)] ∧
    (Json.obj [("b".data, .num 3)]) ≠ .obj [("b".data, .num 2), ("b".data, .num 3)] := by
  refine ⟨by decide, by decide, by decide⟩

/-- Claim C10: in the seen-set engine, a document whose top-level value is
a number or a boolean makes `deduplicateObject` return the empty object
(`Object.keys` of a primitive is empty), `sortObject` likewise, and the
transform therefore prints the text `"{}"` in place of the original
primitive. -/
theorem C10_primitive_empty_object :
    ∀ (so : Option String) (n : Int) (b : Bool),
      (dedupA (.num n) []).1 = [] ∧
      (dedupA (.bool b) []).1 = [] ∧
      sortA (createSortFunction so) (.num n) = .obj [] ∧
      sortA (createSortFunction so) (.bool b) = .obj [] ∧
      processJsonAText so (.num n) = "\x7b\x7d" ∧
      processJsonAText so (.bool b) = "\x7b\x7d" := by
  intro so n b
  refine ⟨rfl, rfl, rfl, rfl, rfl, rfl⟩

/-- Claim C3, counterexample: none of `"item10"`, `"item2"`, `"item1"`
starts with a digit, so the numeric policy falls back to plain string
comparison and produces `["item1","item10","item2"]`, not the
`["item1","item2","item10"]` the claim states. -/
theorem C3_numeric_scenario_ce :
    jsSort numericSort ["item10".data, "item2".data, "item1".data] =
      ["item1".data, "item10".data, "item2".data] ∧
    ["item1".data, "item10".data, "item2".data] ≠
      ["item1".data, "item2".data, "item10".data] := by
  refine ⟨by decide, by decide⟩

/-- Claim C3 (amended): sorting `["item10","item2","item1"]` with the
numeric policy yields `["item1","item10","item2"]`, because the digit
extraction is anchored at the START of the key and none of these keys has
a leading digit run; keys that do begin with digits, such as
`["10a","2a","1a"]`, are ordered by the numeric value of that prefix. -/
theorem C3_numeric_scenario_amended :
    jsSort numericSort ["item10".data, "item2".data, "item1".data] =
      ["item1".data, "item10".data, "item2".data] ∧
    jsSort numericSort ["10a".data, "2a".data, "1a".data] =
      ["1a".data, "2a".data, "10a".data] := by
  refine ⟨by decide, by decide⟩

/-- Claim C2, counterexample: supplying the documented identifier
`"lexical"` as the sortOrder option makes `parseOptions` throw (the string
is not JSON), so resolution DOES fail instead of accepting the raw string
as a policy identifier. -/
theorem C2_lexical_rejected :
    parseOptions ⟨some (.bool false), some (.str ("lexical".data))⟩ =
      .error "Failed to parse sort order option as JSON" := by
  rfl

/-- Claim C2 (amended): the JSON-parse-then-fall-back discrimination the
claim describes lives in `createSortCompareFunction`, which, when
`JSON.parse` of the sort-order string fails, treats the raw string as a
registry identifier (so `"lexical"` yields exactly `lexicalSort` there);
but `parseOptions`, which validates first, rejects every explicitly
supplied sortOrder that does not parse as a JSON object, so explicit
identifier configuration fails; only the defaulted (absent) sortOrder
reaches `createSortCompareFunction` as a bare identifier. -/
theorem C2_resolver_amended :
    (∀ a b : Str, createSortCompareFunction "lexical" a b = lexicalSort a b) ∧
    parseOptions ⟨some (.bool false), some (.str ("lexical".data))⟩ =
      .error "Failed to parse sort order option as JSON" ∧
    parseOptions ⟨some (.bool false), none⟩ = .ok (false, none) ∧
    applyDefaultOptions (false, none) = (false, "lexical") := by
  refine ⟨?_, rfl, rfl, rfl⟩
  intro a b
  have h : jsonTextParse "lexical" = none := by rfl
  unfold createSortCompareFunction
  rw [h]
  rfl

/-- Claim C6, counterexample: the duplicate-free document
`{"A":1,"a":2}` under policy `caseInsensitiveNumeric` (whose comparator
answers "before" for BOTH orders of two keys with equal lower-casings,
because `numericSort(x,x) = -1`) flip-flops: one application of the
filePattern engine yields `{"a":2,"A":1}`, a second application restores
`{"A":1,"a":2}`, so applying the engine twice differs from applying it
once. -/
theorem C6_idem_ce :
    huniq (.obj [("A".data, .num 1), ("a".data, .num 2)]) = true ∧
    processJsonCVal ("x.json".data) [] (some "caseInsensitiveNumeric")
        (.obj [("A".data, .num 1), ("a".data, .num 2)]) =
      .obj [("a".data, .num 2), ("A".data, .num 1)] ∧
    processJsonCVal ("x.json".data) [] (some "caseInsensitiveNumeric")
        (processJsonCVal ("x.json".data) [] (some "caseInsensitiveNumeric")
          (.obj [("A".data, .num 1), ("a".data, .num 2)])) ≠
      processJsonCVal ("x.json".data) [] (some "caseInsensitiveNumeric")
        (.obj [("A".data, .num 1), ("a".data, .num 2)]) := by
  refine ⟨by decide, by decide, by decide⟩

/-! ### Structure-preservation lemmas for the sorters (claim C5) -/

theorem sortObjC_of_prim (f : Cmp) (v : Json) :
    (if isObjType v then sortObjC f v else v) = sortObjC f v := by
  cases v <;> rfl

theorem sortObjCList_eq_map (f : Cmp) :
    ∀ vs : List Json, sortObjCList f vs = vs.map (sortObjC f)
  | [] => rfl
  | v :: vs => by
      rw [sortObjCList, sortObjC_of_prim, sortObjCList_eq_map f vs, List.map_cons]

theorem sortObjCPairs_eq_map (f : Cmp) :
    ∀ ps : List (Str × Json),
      sortObjCPairs f ps = ps.map (fun kv => (kv.1, sortObjC f kv.2))
  | [] => rfl
  | (k, v) :: ps => by
      rw [sortObjCPairs, sortObjC_of_prim, sortObjCPairs_eq_map f ps, List.map_cons]

theorem keysOf_map_values (g : Json → Json) (ps : List (Str × Json)) :
    keysOf (ps.map (fun kv => (kv.1, g kv.2))) = keysOf ps := by
  induction ps with
  | nil => rfl
  | cons kv ps ih =>
      show kv.1 :: keysOf (ps.map _) = kv.1 :: keysOf ps
      rw [ih]

theorem lookupKey_map_values (g : Json → Json) (k : Str) :
    ∀ ps : List (Str × Json),
      lookupKey k (ps.map (fun kv => (kv.1, g kv.2))) = (lookupKey k ps).map g
  | [] => rfl
  | (k', v) :: ps => by
      by_cases he : k' = k
      · subst he
        simp [lookupKey]
      · simp only [List.map_cons, lookupKey, he, if_false]
        exact lookupKey_map_values g k ps

theorem huniqPairs_forall : ∀ ps : List (Str × Json),
    huniqPairs ps = true ↔ ∀ kv ∈ ps, huniq kv.2 = true
  | [] => by simp [huniqPairs]
  | (k, v) :: ps => by
      rw [huniqPairs]
      simp only [Bool.and_eq_true, huniqPairs_forall ps, List.mem_cons]
      constructor
      · rintro ⟨h1, h2⟩ kv (rfl | hm)
        · exact h1
        · exact h2 kv hm
      · intro h
        exact ⟨h (k, v) (Or.inl rfl), fun kv hm => h kv (Or.inr hm)⟩

theorem huniqList_forall : ∀ vs : List Json,
    huniqList vs = true ↔ ∀ v ∈ vs, huniq v = true
  | [] => by simp [huniqList]
  | v :: vs => by
      rw [huniqList]
      simp only [Bool.and_eq_true, huniqList_forall vs, List.mem_cons]
      constructor
      · rintro ⟨h1, h2⟩ w (rfl | hm)
        · exact h1
        · exact h2 w hm
      · intro h
        exact ⟨h v (Or.inl rfl), fun w hm => h w (Or.inr hm)⟩

theorem huniq_obj_parts {ps : List (Str × Json)} (h : huniq (.obj ps) = true) :
    (keysOf ps).Nodup ∧ huniqPairs ps = true := by
  rw [huniq, Bool.and_eq_true] at h
  exact ⟨(nodupB_iff _).mp h.1, h.2⟩

theorem lookupKey_jsSort (f : Cmp) {ps : List (Str × Json)}
    (hnd : (keysOf ps).Nodup) (k : Str) :
    lookupKey k (jsSort (fun x y => f x.1 y.1) ps) = lookupKey k ps :=
  (lookupKey_perm (jsSort_perm _ ps).symm hnd k).symm

theorem getPath_obj_key (ps : List (Str × Json)) (k : Str) (p : List PathStep) :
    getPath (.obj ps) (.key k :: p) =
      match lookupKey k ps with
      | some v => getPath v p
      | none => none := rfl

theorem getPath_arr_idx (vs : List Json) (i : Nat) (p : List PathStep) :
    getPath (.arr vs) (.idx i :: p) =
      match vs[i]? with
      | some v => getPath v p
      | none => none := rfl

/-- The key fact behind claim C5 for the always-recursive sorter: on a
hereditarily unique tree, navigation and sorting commute — the value found
at a path in the sorted tree is the sorted image of the value found at the
same path in the input. -/
theorem getPath_sortObjC (f : Cmp) :
    ∀ (p : List PathStep) (v : Json), huniq v = true →
      getPath (sortObjC f v) p = (getPath v p).map (sortObjC f)
  | [], v, _ => by simp [getPath]
  | .key k :: p, v, hu => by
      cases v with
      | obj ps =>
          obtain ⟨hnd, hup⟩ := huniq_obj_parts hu
          have hndm : (keysOf (sortObjCPairs f ps)).Nodup := by
            rw [sortObjCPairs_eq_map, keysOf_map_values]
            exact hnd
          show getPath (.obj (jsSort (fun x y => f x.1 y.1) (sortObjCPairs f ps))) (.key k :: p) =
            (getPath (.obj ps) (.key k :: p)).map (sortObjC f)
          rw [getPath_obj_key, lookupKey_jsSort f hndm k, sortObjCPairs_eq_map,
            lookupKey_map_values, getPath_obj_key]
          cases hl : lookupKey k ps with
          | none => rfl
          | some w =>
              have hw : huniq w = true :=
                (huniqPairs_forall ps).mp hup (k, w) (lookupKey_mem hl)
              show getPath (sortObjC f w) p = (getPath w p).map (sortObjC f)
              exact getPath_sortObjC f p w hw
      | arr vs => rfl
      | null => rfl
      | bool b => rfl
      | num n => rfl
      | str s => rfl
  | .idx i :: p, v, hu => by
      cases v with
      | arr vs =>
          show getPath (.arr (sortObjCList f vs)) (.idx i :: p) =
            (getPath (.arr vs) (.idx i :: p)).map (sortObjC f)
          rw [getPath_arr_idx, sortObjCList_eq_map, List.getElem?_map, getPath_arr_idx]
          cases hl : vs[i]? with
          | none => rfl
          | some w =>
              have hwm : w ∈ vs := by
                obtain ⟨hlt, he⟩ := List.getElem?_eq_some.mp hl
                exact he ▸ List.getElem_mem hlt
              have hw : huniq w = true := (huniqList_forall vs).mp hu w hwm
              show getPath (sortObjC f w) p = (getPath w p).map (sortObjC f)
              exact getPath_sortObjC f p w hw
      | obj ps => rfl
      | null => rfl
      | bool b => rfl
      | num n => rfl
      | str s => rfl

theorem containsB_false_iff (l : List Str) (k : Str) : l.contains k = false ↔ k ∉ l := by
  cases hc : l.contains k
  · simp only [true_iff]
    intro hm
    rw [← containsB_iff l k, hc] at hm
    cases hm
  · rw [containsB_iff] at hc
    simp [hc]

theorem dedupC_of_prim (v : Json) :
    (if isObjType v then dedupC v else v) = dedupC v := by
  cases v <;> rfl

mutual

theorem dedupC_eq_self : ∀ v : Json, huniq v = true → dedupC v = v
  | .arr vs, hu => by rw [dedupC, dedupCList_eq_self vs hu]
  | .obj ps, hu => by
      obtain ⟨hnd, hup⟩ := huniq_obj_parts hu
      rw [dedupC, dedupCPairs_eq_self ps [] hnd hup (fun k _ => rfl)]
  | .null, _ => rfl
  | .bool b, _ => rfl
  | .num n, _ => rfl
  | .str s, _ => rfl

theorem dedupCList_eq_self : ∀ vs : List Json, huniqList vs = true → dedupCList vs = vs
  | [], _ => rfl
  | v :: vs, hu => by
      rw [huniqList, Bool.and_eq_true] at hu
      rw [dedupCList, dedupC_of_prim, dedupC_eq_self v hu.1, dedupCList_eq_self vs hu.2]

theorem dedupCPairs_eq_self : ∀ (ps : List (Str × Json)) (seen : List Str),
    (keysOf ps).Nodup → huniqPairs ps = true →
    (∀ k ∈ keysOf ps, seen.contains k = false) →
    dedupCPairs ps seen = ps
  | [], _, _, _, _ => rfl
  | (k, v) :: rest, seen, hnd, hup, hdis => by
      have hk : seen.contains k = false := hdis k (List.mem_cons_self _ _)
      have hnd1 : (k :: keysOf rest).Nodup := hnd
      have hnd' := List.nodup_cons.mp hnd1
      rw [huniqPairs, Bool.and_eq_true] at hup
      have hdis' : ∀ k' ∈ keysOf rest, (k :: seen).contains k' = false := by
        intro k' hm
        rw [containsB_false_iff]
        intro hin
        rcases List.mem_cons.mp hin with rfl | hin2
        · exact hnd'.1 hm
        · exact (containsB_false_iff seen k').mp (hdis k' (List.mem_cons_of_mem _ hm)) hin2
      rw [dedupCPairs, hk]
      show (k, if isObjType v then dedupC v else v) :: dedupCPairs rest (k :: seen) = _
      rw [dedupC_of_prim, dedupC_eq_self v hup.1,
        dedupCPairs_eq_self rest (k :: seen) hnd'.2 hup.2 hdis']

end

/-! ### `JSON.parse` produces hereditarily unique trees and fixes them -/

theorem upsert_of_not_mem (k : Str) (v : Json) :
    ∀ acc : List (Str × Json), k ∉ keysOf acc → upsert k v acc = acc ++ [(k, v)]
  | [], _ => rfl
  | (k', v') :: acc, h => by
      have hne : ¬ (k' = k) := by
        intro he
        exact h (he ▸ List.mem_cons_self _ _)
      rw [upsert, if_neg hne, upsert_of_not_mem k v acc (fun hm => h (List.mem_cons_of_mem _ hm))]
      rfl

theorem keysOf_upsert_mem (k : Str) (v : Json) :
    ∀ acc : List (Str × Json), k ∈ keysOf acc → keysOf (upsert k v acc) = keysOf acc
  | [], h => by cases h
  | (k', v') :: acc, h => by
      by_cases he : k' = k
      · subst he
        rw [upsert, if_pos rfl]
        rfl
      · rw [upsert, if_neg he]
        have hm : k ∈ keysOf acc := by
          rcases List.mem_cons.mp h with h1 | h1
          · exact absurd h1.symm he
          · exact h1
        show k' :: keysOf (upsert k v acc) = k' :: keysOf acc
        rw [keysOf_upsert_mem k v acc hm]

theorem nodup_keysOf_upsert (k : Str) (v : Json) (acc : List (Str × Json))
    (h : (keysOf acc).Nodup) : (keysOf (upsert k v acc)).Nodup := by
  by_cases hm : k ∈ keysOf acc
  · rw [keysOf_upsert_mem k v acc hm]
    exact h
  · rw [upsert_of_not_mem k v acc hm]
    have : keysOf (acc ++ [(k, v)]) = keysOf acc ++ [k] := by
      simp [keysOf]
    rw [this]
    simp [List.nodup_append, h, hm]

theorem mem_upsert {kv : Str × Json} (k : Str) (v : Json) :
    ∀ acc : List (Str × Json), kv ∈ upsert k v acc → kv = (k, v) ∨ kv ∈ acc
  | [], h => by
      rcases List.mem_singleton.mp h with rfl
      exact Or.inl rfl
  | (k', v') :: acc, h => by
      by_cases he : k' = k
      · subst he
        rw [upsert, if_pos rfl] at h
        rcases List.mem_cons.mp h with rfl | h1
        · exact Or.inl rfl
        · exact Or.inr (List.mem_cons_of_mem _ h1)
      · rw [upsert, if_neg he] at h
        rcases List.mem_cons.mp h with rfl | h1
        · exact Or.inr (List.mem_cons_self _ _)
        · rcases mem_upsert k v acc h1 with h2 | h2
          · exact Or.inl h2
          · exact Or.inr (List.mem_cons_of_mem _ h2)

mutual

theorem jsParse_huniq : ∀ v : Json, huniq (jsParse v) = true
  | .arr vs => by
      rw [jsParse]
      show huniqList (jsParseList vs) = true
      exact jsParseList_huniq vs
  | .obj ps => by
      rw [jsParse]
      show (nodupB (keysOf (jsParseFold [] ps)) && huniqPairs (jsParseFold [] ps)) = true
      have h := jsParseFold_inv ps [] (by simp [keysOf]) rfl
      rw [(nodupB_iff _).mpr h.1, h.2]
      rfl
  | .null => rfl
  | .bool b => rfl
  | .num n => rfl
  | .str s => rfl

theorem jsParseList_huniq : ∀ vs : List Json, huniqList (jsParseList vs) = true
  | [] => rfl
  | v :: vs => by
      rw [jsParseList, huniqList, jsParse_huniq v, jsParseList_huniq vs]
      rfl

theorem jsParseFold_inv : ∀ (ps acc : List (Str × Json)),
    (keysOf acc).Nodup → huniqPairs acc = true →
    (keysOf (jsParseFold acc ps)).Nodup ∧ huniqPairs (jsParseFold acc ps) = true
  | [], acc, h1, h2 => ⟨h1, h2⟩
  | (k, v) :: ps, acc, h1, h2 => by
      rw [jsParseFold]
      refine jsParseFold_inv ps (upsert k (jsParse v) acc) (nodup_keysOf_upsert _ _ _ h1) ?_
      rw [huniqPairs_forall]
      intro kv hm
      rcases mem_upsert k (jsParse v) acc hm with rfl | hm2
      · exact jsParse_huniq v
      · exact (huniqPairs_forall acc).mp h2 kv hm2

end

theorem jsParseFold_append : ∀ (ps acc : List (Str × Json)),
    (keysOf ps).Nodup → (∀ k ∈ keysOf ps, k ∉ keysOf acc) →
    jsParseFold acc ps = acc ++ ps.map (fun kv => (kv.1, jsParse kv.2))
  | [], acc, _, _ => by simp [jsParseFold]
  | (k, v) :: ps, acc, hnd, hdis => by
      have hnd1 : (k :: keysOf ps).Nodup := hnd
      have hnd' := List.nodup_cons.mp hnd1
      rw [jsParseFold, upsert_of_not_mem k _ acc (hdis k (List.mem_cons_self _ _))]
      rw [jsParseFold_append ps (acc ++ [(k, jsParse v)]) hnd'.2 ?_]
      · simp
      · intro k' hm
        have hk : k' ∉ keysOf acc := hdis k' (List.mem_cons_of_mem _ hm)
        have : keysOf (acc ++ [(k, jsParse v)]) = keysOf acc ++ [k] := by simp [keysOf]
        rw [this]
        simp only [List.mem_append, List.mem_singleton]
        rintro (h | rfl)
        · exact hk h
        · exact hnd'.1 hm

mutual

theorem jsParse_eq_self : ∀ v : Json, huniq v = true → jsParse v = v
  | .arr vs, hu => by
      rw [jsParse]
      show Json.arr (jsParseList vs) = _
      rw [jsParseList_eq_self vs hu]
  | .obj ps, hu => by
      obtain ⟨hnd, hup⟩ := huniq_obj_parts hu
      rw [jsParse]
      show Json.obj (jsParseFold [] ps) = _
      rw [jsParseFold_append ps [] hnd (fun k _ hin => by cases hin)]
      rw [List.nil_append, jsParseMap_eq_self ps hup]
  | .null, _ => rfl
  | .bool b, _ => rfl
  | .num n, _ => rfl
  | .str s, _ => rfl

theorem jsParseList_eq_self : ∀ vs : List Json, huniqList vs = true → jsParseList vs = vs
  | [], _ => rfl
  | v :: vs, hu => by
      rw [huniqList, Bool.and_eq_true] at hu
      rw [jsParseList, jsParse_eq_self v hu.1, jsParseList_eq_self vs hu.2]

theorem jsParseMap_eq_self : ∀ ps : List (Str × Json), huniqPairs ps = true →
    ps.map (fun kv => (kv.1, jsParse kv.2)) = ps
  | [], _ => rfl
  | (k, v) :: ps, hu => by
      rw [huniqPairs, Bool.and_eq_true] at hu
      rw [List.map_cons, jsParse_eq_self v hu.1, jsParseMap_eq_self ps hu.2]

end

/-! ### `sortAst` analogues of the path lemmas -/

theorem sortAst_of_prim (r : Bool) (f : Cmp) (v : Json) :
    (if isObjType v then sortAst r f v else v) = sortAst r f v := by
  cases v with
  | arr vs => rfl
  | obj ps => rfl
  | null => rfl
  | bool b => cases r <;> rfl
  | num n => cases r <;> rfl
  | str s => cases r <;> rfl

theorem sortAstList_eq_map (r : Bool) (f : Cmp) :
    ∀ vs : List Json, sortAstList r f vs = vs.map (sortAst r f)
  | [] => rfl
  | v :: vs => by rw [sortAstList, sortAstList_eq_map r f vs, List.map_cons]

theorem sortAstPairs_eq_map (r : Bool) (f : Cmp) :
    ∀ ps : List (Str × Json),
      sortAstPairs r f ps = ps.map (fun kv => (kv.1, sortAst r f kv.2))
  | [] => rfl
  | (k, v) :: ps => by
      rw [sortAstPairs, sortAst_of_prim, sortAstPairs_eq_map r f ps, List.map_cons]

theorem getPath_sortAst_true (f : Cmp) :
    ∀ (p : List PathStep) (v : Json), huniq v = true →
      getPath (sortAst true f v) p = (getPath v p).map (sortAst true f)
  | [], v, _ => by simp [getPath]
  | .key k :: p, v, hu => by
      cases v with
      | obj ps =>
          obtain ⟨hnd, hup⟩ := huniq_obj_parts hu
          have hndm : (keysOf (sortAstPairs true f ps)).Nodup := by
            rw [sortAstPairs_eq_map, keysOf_map_values]
            exact hnd
          show getPath (.obj (jsSort (fun x y => f x.1 y.1) (sortAstPairs true f ps))) (.key k :: p) =
            (getPath (.obj ps) (.key k :: p)).map (sortAst true f)
          rw [getPath_obj_key, lookupKey_jsSort f hndm k, sortAstPairs_eq_map,
            lookupKey_map_values, getPath_obj_key]
          cases hl : lookupKey k ps with
          | none => rfl
          | some w =>
              have hw : huniq w = true :=
                (huniqPairs_forall ps).mp hup (k, w) (lookupKey_mem hl)
              show getPath (sortAst true f w) p = (getPath w p).map (sortAst true f)
              exact getPath_sortAst_true f p w hw
      | arr vs => rfl
      | null => rfl
      | bool b => rfl
      | num n => rfl
      | str s => rfl
  | .idx i :: p, v, hu => by
      cases v with
      | arr vs =>
          show getPath (.arr (sortAstList true f vs)) (.idx i :: p) =
            (getPath (.arr vs) (.idx i :: p)).map (sortAst true f)
          rw [getPath_arr_idx, sortAstList_eq_map, List.getElem?_map, getPath_arr_idx]
          cases hl : vs[i]? with
          | none => rfl
          | some w =>
              have hwm : w ∈ vs := by
                obtain ⟨hlt, he⟩ := List.getElem?_eq_some.mp hl
                exact he ▸ List.getElem_mem hlt
              have hw : huniq w = true := (huniqList_forall vs).mp hu w hwm
              show getPath (sortAst true f w) p = (getPath w p).map (sortAst true f)
              exact getPath_sortAst_true f p w hw
      | obj ps => rfl
      | null => rfl
      | bool b => rfl
      | num n => rfl
      | str s => rfl

theorem getPath_sortAst_false (f : Cmp) (s : PathStep) (p : List PathStep)
    (v : Json) (hu : huniq v = true) :
    getPath (sortAst false f v) (s :: p) = getPath v (s :: p) := by
  cases v with
  | obj ps =>
      obtain ⟨hnd, _⟩ := huniq_obj_parts hu
      cases s with
      | key k =>
          show getPath (.obj (jsSort (fun x y => f x.1 y.1) ps)) (.key k :: p) = _
          rw [getPath_obj_key, lookupKey_jsSort f hnd k, getPath_obj_key]
      | idx i => rfl
  | arr vs => rfl
  | null => rfl
  | bool b => rfl
  | num n => rfl
  | str s => rfl

/-- Claim C5: array order invariance.  (1) For the filePattern engine
(dedup then always-recursive sort): for any document, any comparator and
any path at which the parsed input holds an array, the output holds an
array of the same length whose `i`-th element is the transform of the
input's `i`-th element — the transform never reorders, adds or removes
array elements.  (2) The same holds for sort.ts's `sortAst` in recursive
mode on a duplicate-free AST.  (3) In non-recursive mode, every array of
the tree is returned completely untouched. -/
theorem C5_array_invariance :
    (∀ (f : Cmp) (doc : Json) (p : List PathStep) (vs : List Json),
      getPath (jsParse doc) p = some (.arr vs) →
      ∃ ws : List Json,
        getPath (sortObjC f (dedupC (jsParse doc))) p = some (.arr ws) ∧
        ws.length = vs.length ∧ ws = vs.map (sortObjC f)) ∧
    (∀ (f : Cmp) (ast : Json) (p : List PathStep) (vs : List Json),
      huniq ast = true → getPath ast p = some (.arr vs) →
      ∃ ws : List Json,
        getPath (sortAst true f ast) p = some (.arr ws) ∧
        ws.length = vs.length ∧ ws = vs.map (sortAst true f)) ∧
    (∀ (f : Cmp) (ast : Json) (p : List PathStep) (vs : List Json),
      huniq ast = true → getPath ast p = some (.arr vs) →
      getPath (sortAst false f ast) p = some (.arr vs)) := by
  refine ⟨?_, ?_, ?_⟩
  · intro f doc p vs hp
    have hu : huniq (jsParse doc) = true := jsParse_huniq doc
    rw [dedupC_eq_self _ hu]
    refine ⟨vs.map (sortObjC f), ?_, List.length_map _ _, rfl⟩
    rw [getPath_sortObjC f p _ hu, hp]
    show some (Json.arr (sortObjCList f vs)) = _
    rw [sortObjCList_eq_map]
  · intro f ast p vs hu hp
    refine ⟨vs.map (sortAst true f), ?_, List.length_map _ _, rfl⟩
    rw [getPath_sortAst_true f p _ hu, hp]
    show some (Json.arr (sortAstList true f vs)) = _
    rw [sortAstList_eq_map]
  · intro f ast p vs hu hp
    cases p with
    | nil =>
        have hast : ast = Json.arr vs := by
          have h0 : getPath ast [] = some ast := by simp [getPath]
          rw [h0] at hp
          exact (Option.some.inj hp)
        subst hast
        rfl
    | cons s p' =>
        rw [getPath_sortAst_false f s p' ast hu]
        exact hp

/-- Claim C5, witness: the engine applied to
`{"b":[1,{"k":2}],"a":3}` with the lexical comparator; the array at key
`"b"` keeps its length and element order, the nested object element being
transformed in place. -/
theorem C5_array_invariance_witness :
    ∃ ws : List Json,
      getPath (sortObjC lexicalSort (dedupC (jsParse
          (.obj [("b".data, .arr [.num 1, .obj [("k".data, .num 2)]]), ("a".data, .num 3)]))))
        [.key ("b".data)] = some (.arr ws) ∧
      ws.length = [Json.num 1, Json.obj [("k".data, .num 2)]].length ∧
      ws = [Json.num 1, Json.obj [("k".data, .num 2)]].map (sortObjC lexicalSort) :=
  C5_array_invariance.1 lexicalSort
    (.obj [("b".data, .arr [.num 1, .obj [("k".data, .num 2)]]), ("a".data, .num 3)])
    [.key ("b".data)] [Json.num 1, Json.obj [("k".data, .num 2)]] (by decide)

/-! ### Generic facts about `jsSort`: a consistent comparator makes it a
stable sort with sorted output, and sorted input is a fixed point. -/

theorem mem_insertSorted {α : Type} (f : α → α → Int) (x : α) (l : List α) {z : α}
    (h : z ∈ insertSorted f x l) : z = x ∨ z ∈ l := by
  have := (insertSorted_perm f x l).mem_iff.mp h
  simpa using this

theorem insertSorted_noInv {α : Type} (f : α → α → Int) (S : α → Prop)
    (Ha : ∀ a b, S a → S b → a ≠ b → f a b < 0 → ¬ f b a < 0)
    (Ht : ∀ a b c, S a → S b → S c → f a b < 0 → f b c < 0 → f a c < 0)
    (x : α) (hx : S x) :
    ∀ l : List α, (∀ z ∈ l, S z) → x ∉ l → l.Nodup →
      l.Pairwise (fun u v => ¬ f v u < 0) →
      (insertSorted f x l).Pairwise (fun u v => ¬ f v u < 0)
  | [], _, _, _, _ => by simp [insertSorted]
  | y :: ys, hS, hxl, hnd, hpw => by
      rw [insertSorted]
      rcases List.pairwise_cons.mp hpw with ⟨hy, hys⟩
      have hySy : S y := hS y (List.mem_cons_self _ _)
      by_cases hlt : f x y < 0
      · rw [if_pos hlt]
        refine List.pairwise_cons.mpr ⟨?_, hpw⟩
        intro z hz
        rcases List.mem_cons.mp hz with rfl | hz2
        · exact Ha x z hx hySy (fun he => hxl (he ▸ List.mem_cons_self _ _)) hlt
        · intro hzx
          have hSz : S z := hS z (List.mem_cons_of_mem _ hz2)
          exact hy z hz2 (Ht z x y hSz hx hySy hzx hlt)
      · rw [if_neg hlt]
        refine List.pairwise_cons.mpr ⟨?_, ?_⟩
        · intro z hz
          rcases mem_insertSorted f x ys hz with rfl | hz2
          · exact hlt
          · exact hy z hz2
        · exact insertSorted_noInv f S Ha Ht x hx ys
            (fun z hz => hS z (List.mem_cons_of_mem _ hz))
            (fun hm => hxl (List.mem_cons_of_mem _ hm))
            (List.nodup_cons.mp hnd).2 hys

theorem jsSort_noInv_aux {α : Type} (f : α → α → Int) (S : α → Prop)
    (Ha : ∀ a b, S a → S b → a ≠ b → f a b < 0 → ¬ f b a < 0)
    (Ht : ∀ a b c, S a → S b → S c → f a b < 0 → f b c < 0 → f a c < 0) :
    ∀ (rest acc : List α), (∀ z ∈ acc ++ rest, S z) → (acc ++ rest).Nodup →
      acc.Pairwise (fun u v => ¬ f v u < 0) →
      (rest.foldl (fun a x => insertSorted f x a) acc).Pairwise (fun u v => ¬ f v u < 0)
  | [], acc, _, _, hpw => hpw
  | x :: rest, acc, hS, hnd, hpw => by
      rw [List.foldl_cons]
      have hperm1 : (insertSorted f x acc).Perm (x :: acc) := insertSorted_perm f x acc
      have hperm : (insertSorted f x acc ++ rest).Perm (acc ++ x :: rest) :=
        (hperm1.append_right rest).trans List.perm_middle.symm
      have hnd0 := (List.nodup_append).mp hnd
      have hxacc : x ∉ acc := by
        intro hm
        exact (hnd0.2.2 hm) (List.mem_cons_self _ _)
      refine jsSort_noInv_aux f S Ha Ht rest (insertSorted f x acc) ?_ ?_ ?_
      · intro z hz
        exact hS z (hperm.mem_iff.mp hz)
      · exact (hperm.nodup_iff).mpr hnd
      · refine insertSorted_noInv f S Ha Ht x
          (hS x (by simp)) acc (fun z hz => hS z (by simp [hz])) hxacc hnd0.1 hpw

theorem jsSort_noInv {α : Type} (f : α → α → Int) (S : α → Prop)
    (Ha : ∀ a b, S a → S b → a ≠ b → f a b < 0 → ¬ f b a < 0)
    (Ht : ∀ a b c, S a → S b → S c → f a b < 0 → f b c < 0 → f a c < 0)
    (l : List α) (hS : ∀ z ∈ l, S z) (hnd : l.Nodup) :
    (jsSort f l).Pairwise (fun u v => ¬ f v u < 0) := by
  have := jsSort_noInv_aux f S Ha Ht l [] (by simpa using hS) (by simpa using hnd)
    (List.Pairwise.nil)
  simpa [jsSort] using this

theorem insertSorted_eq_append {α : Type} (f : α → α → Int) (x : α) :
    ∀ l : List α, (∀ y ∈ l, ¬ f x y < 0) → insertSorted f x l = l ++ [x]
  | [], _ => rfl
  | y :: ys, h => by
      rw [insertSorted, if_neg (h y (List.mem_cons_self _ _)),
        insertSorted_eq_append f x ys (fun z hz => h z (List.mem_cons_of_mem _ hz))]
      rfl

theorem jsSort_fix_aux {α : Type} (f : α → α → Int) :
    ∀ (rest acc : List α), (acc ++ rest).Pairwise (fun u v => ¬ f v u < 0) →
      rest.foldl (fun a x => insertSorted f x a) acc = acc ++ rest
  | [], acc, _ => by simp
  | x :: rest, acc, hpw => by
      rw [List.foldl_cons]
      have h1 : ∀ y ∈ acc, ¬ f x y < 0 := by
        intro y hy
        have := (List.pairwise_append).mp hpw
        exact this.2.2 y hy x (List.mem_cons_self _ _)
      rw [insertSorted_eq_append f x acc h1]
      have hpw' : ((acc ++ [x]) ++ rest).Pairwise (fun u v => ¬ f v u < 0) := by
        rw [List.append_assoc]
        exact hpw
      rw [jsSort_fix_aux f rest (acc ++ [x]) hpw']
      simp

theorem jsSort_fix {α : Type} (f : α → α → Int) (l : List α)
    (hpw : l.Pairwise (fun u v => ¬ f v u < 0)) : jsSort f l = l := by
  have := jsSort_fix_aux f l [] (by simpa using hpw)
  simpa [jsSort] using this

theorem jsSort_idem {α : Type} (f : α → α → Int) (S : α → Prop)
    (Ha : ∀ a b, S a → S b → a ≠ b → f a b < 0 → ¬ f b a < 0)
    (Ht : ∀ a b c, S a → S b → S c → f a b < 0 → f b c < 0 → f a c < 0)
    (l : List α) (hS : ∀ z ∈ l, S z) (hnd : l.Nodup) :
    jsSort f (jsSort f l) = jsSort f l :=
  jsSort_fix f (jsSort f l) (jsSort_noInv f S Ha Ht l hS hnd)

/-! ### `numericSort` is a strict total order on distinct strings -/

theorem strLtb_nil_right : ∀ s : Str, strLtb s [] = false
  | [] => rfl
  | _ :: _ => rfl

theorem strLtb_false_of_ne_of_not_lt {a b : Str} (h : a ≠ b)
    (hn : strLtb a b = false) : strLtb b a = true :=
  (strLtb_connex h).resolve_left (fun ht => by rw [ht] at hn; cases hn)

theorem strLtb_head_iff {c d : Char} (as bs : Str) (h : c ≠ d) :
    strLtb (c :: as) (d :: bs) = true ↔ c < d := by
  rw [strLtb]
  rcases lt_trichotomy c d with h1 | h1 | h1
  · simp [h1]
  · exact absurd h1 h
  · simp [h1, asymm h1]

theorem strLtb_false_head {c d : Char} {as bs : Str} (hne : c ≠ d)
    (h : strLtb (c :: as) (d :: bs) = false) : d < c := by
  rcases lt_trichotomy c d with h1 | h1 | h1
  · rw [(strLtb_head_iff as bs hne).mpr h1] at h
    cases h
  · exact absurd h1 hne
  · exact h1

theorem digitB_iff {c : Char} : digitB c = true ↔ '0' ≤ c ∧ c ≤ '9' := by
  unfold digitB
  rw [Bool.and_eq_true, decide_eq_true_eq, decide_eq_true_eq]

theorem digit_ne_nondigit {c d : Char} (hc : digitB c = true) (hd : digitB d = false) :
    c ≠ d := by
  intro he
  rw [he, hd] at hc
  cases hc

theorem digit_lt_nondigit {c d : Char} (hc : digitB c = true) (hd : digitB d = false)
    (h : c < d) : ('9' : Char) < d := by
  rcases digitB_iff.mp hc with ⟨h0, _⟩
  by_contra hle
  push_neg at hle
  have : digitB d = true := digitB_iff.mpr ⟨le_trans h0 (le_of_lt h), hle⟩
  rw [hd] at this
  cases this

theorem nondigit_lt_digit {c d : Char} (hc : digitB c = true) (hd : digitB d = false)
    (h : d < c) : d < ('0' : Char) := by
  rcases digitB_iff.mp hc with ⟨_, h9⟩
  by_contra hle
  push_neg at hle
  have : digitB d = true := digitB_iff.mpr ⟨hle, le_of_lt (lt_of_lt_of_le h h9)⟩
  rw [hd] at this
  cases this

theorem numPrefixVal_some_head {s : Str} {p : Nat} (h : numPrefixVal s = some p) :
    ∃ c t, s = c :: t ∧ digitB c = true := by
  cases s with
  | nil => simp [numPrefixVal] at h
  | cons c t =>
      cases hc : digitB c
      · rw [numPrefixVal] at h
        simp [List.takeWhile, hc] at h
      · exact ⟨c, t, rfl, hc⟩

theorem numPrefixVal_none_head {s : Str} (h : numPrefixVal s = none) :
    s = [] ∨ ∃ c t, s = c :: t ∧ digitB c = false := by
  cases s with
  | nil => exact Or.inl rfl
  | cons c t =>
      cases hc : digitB c
      · exact Or.inr ⟨c, t, rfl, hc⟩
      · rw [numPrefixVal] at h
        simp [List.takeWhile, hc] at h

theorem numFallback_cases (a b : Str) : numFallback a b = 1 ∨ numFallback a b = -1 := by
  unfold numFallback
  cases h : strLtb b a
  · simp
  · simp

theorem numFallback_neg_iff {a b : Str} : numFallback a b < 0 ↔ strLtb b a = false := by
  unfold numFallback
  cases h : strLtb b a <;> simp

theorem numFallback_pos_iff {a b : Str} : 0 < numFallback a b ↔ strLtb b a = true := by
  unfold numFallback
  cases h : strLtb b a <;> simp

theorem numericSort_both {a b : Str} {pa pb : Nat}
    (ha : numPrefixVal a = some pa) (hb : numPrefixVal b = some pb) :
    numericSort a b = if pa = pb then numFallback a b else (pa : Int) - (pb : Int) := by
  unfold numericSort
  rw [ha, hb]

theorem numericSort_fba {a b : Str} (ha : numPrefixVal a = none) :
    numericSort a b = numFallback a b := by
  unfold numericSort
  cases hb : numPrefixVal b <;> rw [ha]

theorem numericSort_fbb {a b : Str} (hb : numPrefixVal b = none) :
    numericSort a b = numFallback a b := by
  unfold numericSort
  cases ha : numPrefixVal a <;> rw [hb]

theorem numericSort_ne_zero (a b : Str) : numericSort a b ≠ 0 := by
  cases ha : numPrefixVal a with
  | none =>
      rw [numericSort_fba ha]
      rcases numFallback_cases a b with h | h <;> rw [h] <;> decide
  | some pa =>
      cases hb : numPrefixVal b with
      | none =>
          rw [numericSort_fbb hb]
          rcases numFallback_cases a b with h | h <;> rw [h] <;> decide
      | some pb =>
          rw [numericSort_both ha hb]
          by_cases he : pa = pb
          · rw [if_pos he]
            rcases numFallback_cases a b with h | h <;> rw [h] <;> decide
          · rw [if_neg he]
            intro hz
            apply he
            omega

theorem numericSort_flip {a b : Str} (h : a ≠ b) :
    numericSort a b < 0 ↔ 0 < numericSort b a := by
  have hfb : numFallback a b < 0 ↔ 0 < numFallback b a := by
    rw [numFallback_neg_iff, numFallback_pos_iff]
    constructor
    · exact fun hn => strLtb_false_of_ne_of_not_lt (fun he => h he.symm) hn
    · exact fun ht => strLtb_asymm ht
  cases ha : numPrefixVal a with
  | none => rw [numericSort_fba ha, numericSort_fbb ha]; exact hfb
  | some pa =>
      cases hb : numPrefixVal b with
      | none => rw [numericSort_fbb hb, numericSort_fba hb]; exact hfb
      | some pb =>
          rw [numericSort_both ha hb, numericSort_both hb ha]
          by_cases he : pa = pb
          · rw [if_pos he, if_pos he.symm]
            exact hfb
          · rw [if_neg he, if_neg (fun hh => he hh.symm)]
            omega

theorem numericSort_trans {a b c : Str}
    (h1 : numericSort a b < 0) (h2 : numericSort b c < 0) : numericSort a c < 0 := by
  cases ha : numPrefixVal a with
  | some pa =>
      cases hb : numPrefixVal b with
      | some pb =>
          rw [numericSort_both ha hb] at h1
          cases hc : numPrefixVal c with
          | some pc =>
              rw [numericSort_both hb hc] at h2
              rw [numericSort_both ha hc]
              by_cases hab : pa = pb
              · rw [if_pos hab, numFallback_neg_iff] at h1
                by_cases hbc : pb = pc
                · rw [if_pos hbc, numFallback_neg_iff] at h2
                  rw [if_pos (hab.trans hbc), numFallback_neg_iff]
                  exact strLtb_nltb_trans h1 h2
                · rw [if_neg hbc] at h2
                  have hlt : pa < pc := by omega
                  rw [if_neg (by omega)]
                  omega
              · rw [if_neg hab] at h1
                by_cases hbc : pb = pc
                · rw [if_neg (by omega)]
                  omega
                · rw [if_neg hbc] at h2
                  rw [if_neg (by omega)]
                  omega
          | none =>
              -- c has no digit prefix: show a < c outright via first characters
              rw [numericSort_fbb hc] at h2
              rw [numFallback_neg_iff] at h2
              rw [numericSort_fbb hc, numFallback_neg_iff]
              obtain ⟨f, as, rfl, hf⟩ := numPrefixVal_some_head ha
              obtain ⟨d, bs, rfl, hd⟩ := numPrefixVal_some_head hb
              rcases numPrefixVal_none_head hc with rfl | ⟨e, cs, rfl, he⟩
              · rw [strLtb] at h2
                cases h2
              · have hde : d ≠ e := digit_ne_nondigit hd he
                have hlt : e < d → False := by
                  intro hh
                  rw [(strLtb_head_iff cs bs (fun x => hde x.symm)).mpr hh] at h2
                  cases h2
                have hdlt : d < e := by
                  rcases lt_trichotomy d e with hx | hx | hx
                  · exact hx
                  · exact absurd hx hde
                  · exact absurd hx hlt
                have h9 : ('9' : Char) < e := digit_lt_nondigit hd he hdlt
                have hf9 : f ≤ '9' := (digitB_iff.mp hf).2
                have hne : e ≠ f := fun hh => by
                  rw [hh] at he
                  rw [he] at hf
                  cases hf
                have hfe : f < e := lt_of_le_of_lt hf9 h9
                rw [strLtb]
                simp [asymm hfe, hfe]
      | none =>
          -- b has no digit prefix
          rw [numericSort_fbb hb, numFallback_neg_iff] at h1
          obtain ⟨f, as, hae, hf⟩ := numPrefixVal_some_head ha
          rcases numPrefixVal_none_head hb with rfl | ⟨e, bs, hbe, he⟩
          · rw [hae, strLtb] at h1
            cases h1
          · cases hc : numPrefixVal c with
            | some pc =>
                -- a digit-headed, b nondigit-headed above '9', c digit-headed: c < b fails
                exfalso
                rw [numericSort_fba hb, numFallback_neg_iff] at h2
                obtain ⟨g, cs, hce, hg⟩ := numPrefixVal_some_head hc
                have hef : e ≠ f := fun hh => digit_ne_nondigit hf he hh.symm
                subst hae
                subst hbe
                have hflt : f < e := strLtb_false_head hef h1
                have h9 : ('9' : Char) < e := digit_lt_nondigit hf he hflt
                subst hce
                have hge : g ≠ e := digit_ne_nondigit hg he
                have hgl : g < e := lt_of_le_of_lt (digitB_iff.mp hg).2 h9
                rw [(strLtb_head_iff cs bs hge).mpr hgl] at h2
                cases h2
            | none =>
                rw [numericSort_fbb hc, numFallback_neg_iff] at h2
                rw [numericSort_fbb hc, numFallback_neg_iff]
                exact strLtb_nltb_trans h1 h2
  | none =>
      rw [numericSort_fba ha, numFallback_neg_iff] at h1
      rw [numericSort_fba ha, numFallback_neg_iff]
      cases hb : numPrefixVal b with
      | none =>
          rw [numericSort_fba hb, numFallback_neg_iff] at h2
          exact strLtb_nltb_trans h1 h2
      | some pb =>
          cases hc : numPrefixVal c with
          | none =>
              rw [numericSort_fbb hc, numFallback_neg_iff] at h2
              exact strLtb_nltb_trans h1 h2
          | some pc =>
              -- a nondigit-headed (or empty), b and c digit-headed
              obtain ⟨d, bs, hbe, hd⟩ := numPrefixVal_some_head hb
              obtain ⟨g, cs, hce, hg⟩ := numPrefixVal_some_head hc
              rcases numPrefixVal_none_head ha with rfl | ⟨e, as, hae, he⟩
              · rw [strLtb_nil_right]
              · subst hae
                subst hbe
                have hde : d ≠ e := digit_ne_nondigit hd he
                have helt : e < d := strLtb_false_head hde h1
                have h0 : e < ('0' : Char) := nondigit_lt_digit hd he helt
                subst hce
                have hge : g ≠ e := digit_ne_nondigit hg he
                have hgl : e < g := lt_of_lt_of_le h0 (digitB_iff.mp hg).1
                rw [strLtb]
                simp [asymm hgl, hgl]

/-! ### Consistency of each registry comparator -/

theorem strLtb_ne {a b : Str} (h : strLtb a b = true) : a ≠ b := by
  intro he
  rw [he, strLtb_irrefl] at h
  cases h

theorem lexicalSort_pos_iff {a b : Str} : 0 < lexicalSort a b ↔ strLtb b a = true := by
  unfold lexicalSort
  by_cases h1 : strLtb b a = true
  · simp [h1]
  · by_cases h2 : strLtb a b = true
    · simp [h1, h2]
    · simp [h1, h2]

theorem lex_asym_g : ∀ a b : Str, lexicalSort a b < 0 → ¬ lexicalSort b a < 0 := by
  intro a b h1 h2
  rw [lexicalSort_neg_iff] at h1 h2
  rw [strLtb_asymm h1] at h2
  cases h2

theorem lex_trans_g : ∀ a b c : Str,
    lexicalSort a b < 0 → lexicalSort b c < 0 → lexicalSort a c < 0 := by
  intro a b c h1 h2
  rw [lexicalSort_neg_iff] at h1 h2 ⊢
  exact strLtb_trans h1 h2

theorem reverseSort_neg_iff (g : Cmp) (a b : Str) :
    reverseSort g a b < 0 ↔ 0 < g a b := by
  unfold reverseSort
  omega

theorem revlex_asym_g : ∀ a b : Str,
    reverseSort lexicalSort a b < 0 → ¬ reverseSort lexicalSort b a < 0 := by
  intro a b h1 h2
  rw [reverseSort_neg_iff, lexicalSort_pos_iff] at h1 h2
  rw [strLtb_asymm h1] at h2
  cases h2

theorem revlex_trans_g : ∀ a b c : Str,
    reverseSort lexicalSort a b < 0 → reverseSort lexicalSort b c < 0 →
      reverseSort lexicalSort a c < 0 := by
  intro a b c h1 h2
  rw [reverseSort_neg_iff, lexicalSort_pos_iff] at h1 h2 ⊢
  exact strLtb_trans h2 h1

theorem num_asym_g : ∀ a b : Str, a ≠ b →
    numericSort a b < 0 → ¬ numericSort b a < 0 := by
  intro a b h h1 h2
  have := (numericSort_flip h).mp h1
  omega

theorem num_pos_flip {a b : Str} (h : a ≠ b) (h1 : 0 < numericSort a b) :
    numericSort b a < 0 :=
  (numericSort_flip (fun he => h he.symm)).mpr h1

theorem num_pos_ne {a b : Str} (h1 : 0 < numericSort a b) : a ≠ b := by
  intro he
  rw [he, numericSort_self] at h1
  omega

theorem num_pos_trans : ∀ a b c : Str,
    0 < numericSort a b → 0 < numericSort b c → 0 < numericSort a c := by
  intro a b c h1 h2
  have hab : a ≠ b := num_pos_ne h1
  have hbc : b ≠ c := num_pos_ne h2
  have hba : numericSort b a < 0 := num_pos_flip hab h1
  have hcb : numericSort c b < 0 := num_pos_flip hbc h2
  have hca : numericSort c a < 0 := numericSort_trans hcb hba
  have hac : a ≠ c := by
    intro he
    subst he
    rw [numericSort_self] at hca
    have := (numericSort_flip hab).mpr h2
    omega
  exact (numericSort_flip (fun he => hac he.symm)).mp hca

theorem revnum_asym_g : ∀ a b : Str, a ≠ b →
    reverseSort numericSort a b < 0 → ¬ reverseSort numericSort b a < 0 := by
  intro a b h h1 h2
  rw [reverseSort_neg_iff] at h1 h2
  have := num_pos_flip h h1
  omega

theorem revnum_trans_g : ∀ a b c : Str,
    reverseSort numericSort a b < 0 → reverseSort numericSort b c < 0 →
      reverseSort numericSort a c < 0 := by
  intro a b c h1 h2
  rw [reverseSort_neg_iff] at h1 h2 ⊢
  exact num_pos_trans a b c h1 h2

theorem ciLex_eval (a b : Str) :
    caseInsensitiveSort lexicalSort a b =
      if lexicalSort (lowerStr a) (lowerStr b) = 0 then lexicalSort a b
      else lexicalSort (lowerStr a) (lowerStr b) := rfl

theorem ciLex_neg_iff {a b : Str} :
    caseInsensitiveSort lexicalSort a b < 0 ↔
      (strLtb (lowerStr a) (lowerStr b) = true ∨
        (lowerStr a = lowerStr b ∧ strLtb a b = true)) := by
  rw [ciLex_eval]
  by_cases hz : lexicalSort (lowerStr a) (lowerStr b) = 0
  · have he : lowerStr a = lowerStr b := lexicalSort_eq_zero_iff.mp hz
    rw [if_pos hz, lexicalSort_neg_iff]
    constructor
    · intro h
      exact Or.inr ⟨he, h⟩
    · rintro (h | ⟨_, h⟩)
      · rw [he, strLtb_irrefl] at h
        cases h
      · exact h
  · have hne : lowerStr a ≠ lowerStr b := fun he => hz (lexicalSort_eq_zero_iff.mpr he)
    rw [if_neg hz, lexicalSort_neg_iff]
    constructor
    · intro h
      exact Or.inl h
    · rintro (h | ⟨he, _⟩)
      · exact h
      · exact absurd he hne

theorem cilex_asym_g : ∀ a b : Str,
    caseInsensitiveSort lexicalSort a b < 0 → ¬ caseInsensitiveSort lexicalSort b a < 0 := by
  intro a b h1 h2
  rw [ciLex_neg_iff] at h1 h2
  rcases h1 with h1 | ⟨he1, h1⟩
  · rcases h2 with h2 | ⟨he2, h2⟩
    · rw [strLtb_asymm h1] at h2
      cases h2
    · rw [he2, strLtb_irrefl] at h1
      cases h1
  · rcases h2 with h2 | ⟨_, h2⟩
    · rw [he1, strLtb_irrefl] at h2
      cases h2
    · rw [strLtb_asymm h1] at h2
      cases h2

theorem cilex_trans_g : ∀ a b c : Str,
    caseInsensitiveSort lexicalSort a b < 0 → caseInsensitiveSort lexicalSort b c < 0 →
      caseInsensitiveSort lexicalSort a c < 0 := by
  intro a b c h1 h2
  rw [ciLex_neg_iff] at h1 h2 ⊢
  rcases h1 with h1 | ⟨he1, h1⟩
  · rcases h2 with h2 | ⟨he2, h2⟩
    · exact Or.inl (strLtb_trans h1 h2)
    · exact Or.inl (he2 ▸ h1)
  · rcases h2 with h2 | ⟨he2, h2⟩
    · exact Or.inl (he1 ▸ h2)
    · exact Or.inr ⟨he1.trans he2, strLtb_trans h1 h2⟩

theorem ciRevLex_neg_iff {a b : Str} :
    caseInsensitiveSort (reverseSort lexicalSort) a b < 0 ↔
      (strLtb (lowerStr b) (lowerStr a) = true ∨
        (lowerStr a = lowerStr b ∧ strLtb b a = true)) := by
  show (if reverseSort lexicalSort (lowerStr a) (lowerStr b) = 0
      then reverseSort lexicalSort a b
      else reverseSort lexicalSort (lowerStr a) (lowerStr b)) < 0 ↔ _
  have hz0 : reverseSort lexicalSort (lowerStr a) (lowerStr b) = 0 ↔
      lexicalSort (lowerStr a) (lowerStr b) = 0 := by
    unfold reverseSort
    omega
  by_cases hz : reverseSort lexicalSort (lowerStr a) (lowerStr b) = 0
  · have he : lowerStr a = lowerStr b := lexicalSort_eq_zero_iff.mp (hz0.mp hz)
    rw [if_pos hz, reverseSort_neg_iff, lexicalSort_pos_iff]
    constructor
    · intro h
      exact Or.inr ⟨he, h⟩
    · rintro (h | ⟨_, h⟩)
      · rw [he, strLtb_irrefl] at h
        cases h
      · exact h
  · have hne : lowerStr a ≠ lowerStr b := fun he =>
      hz (hz0.mpr (lexicalSort_eq_zero_iff.mpr he))
    rw [if_neg hz, reverseSort_neg_iff, lexicalSort_pos_iff]
    constructor
    · intro h
      exact Or.inl h
    · rintro (h | ⟨he, _⟩)
      · exact h
      · exact absurd he hne

theorem cirevlex_asym_g : ∀ a b : Str,
    caseInsensitiveSort (reverseSort lexicalSort) a b < 0 →
      ¬ caseInsensitiveSort (reverseSort lexicalSort) b a < 0 := by
  intro a b h1 h2
  rw [ciRevLex_neg_iff] at h1 h2
  rcases h1 with h1 | ⟨he1, h1⟩
  · rcases h2 with h2 | ⟨he2, h2⟩
    · rw [strLtb_asymm h1] at h2
      cases h2
    · rw [he2, strLtb_irrefl] at h1
      cases h1
  · rcases h2 with h2 | ⟨_, h2⟩
    · rw [he1, strLtb_irrefl] at h2
      cases h2
    · rw [strLtb_asymm h1] at h2
      cases h2

theorem cirevlex_trans_g : ∀ a b c : Str,
    caseInsensitiveSort (reverseSort lexicalSort) a b < 0 →
      caseInsensitiveSort (reverseSort lexicalSort) b c < 0 →
      caseInsensitiveSort (reverseSort lexicalSort) a c < 0 := by
  intro a b c h1 h2
  rw [ciRevLex_neg_iff] at h1 h2 ⊢
  rcases h1 with h1 | ⟨he1, h1⟩
  · rcases h2 with h2 | ⟨he2, h2⟩
    · exact Or.inl (strLtb_trans h2 h1)
    · exact Or.inl (he2 ▸ h1)
  · rcases h2 with h2 | ⟨he2, h2⟩
    · exact Or.inl (he1 ▸ h2)
    · exact Or.inr ⟨he1.trans he2, strLtb_trans h2 h1⟩

theorem ciNum_eq (a b : Str) :
    caseInsensitiveSort numericSort a b = numericSort (lowerStr a) (lowerStr b) := by
  show (if numericSort (lowerStr a) (lowerStr b) = 0 then _ else _) = _
  rw [if_neg (numericSort_ne_zero _ _)]

theorem revNum_ne_zero (a b : Str) : reverseSort numericSort a b ≠ 0 := by
  unfold reverseSort
  have := numericSort_ne_zero a b
  omega

theorem ciRevNum_eq (a b : Str) :
    caseInsensitiveSort (reverseSort numericSort) a b =
      reverseSort numericSort (lowerStr a) (lowerStr b) := by
  show (if reverseSort numericSort (lowerStr a) (lowerStr b) = 0 then _ else _) = _
  rw [if_neg (revNum_ne_zero _ _)]

theorem cinum_asym_fold : ∀ a b : Str, lowerStr a ≠ lowerStr b →
    caseInsensitiveSort numericSort a b < 0 →
      ¬ caseInsensitiveSort numericSort b a < 0 := by
  intro a b h h1 h2
  rw [ciNum_eq] at h1 h2
  exact num_asym_g _ _ h h1 h2

theorem cinum_trans_g : ∀ a b c : Str,
    caseInsensitiveSort numericSort a b < 0 → caseInsensitiveSort numericSort b c < 0 →
      caseInsensitiveSort numericSort a c < 0 := by
  intro a b c h1 h2
  rw [ciNum_eq] at h1 h2 ⊢
  exact numericSort_trans h1 h2

theorem cirevnum_asym_g : ∀ a b : Str,
    caseInsensitiveSort (reverseSort numericSort) a b < 0 →
      ¬ caseInsensitiveSort (reverseSort numericSort) b a < 0 := by
  intro a b h1 h2
  rw [ciRevNum_eq, reverseSort_neg_iff] at h1 h2
  have h := num_pos_ne h1
  have := num_pos_flip h h1
  omega

theorem cirevnum_trans_g : ∀ a b c : Str,
    caseInsensitiveSort (reverseSort numericSort) a b < 0 →
      caseInsensitiveSort (reverseSort numericSort) b c < 0 →
      caseInsensitiveSort (reverseSort numericSort) a c < 0 := by
  intro a b c h1 h2
  rw [ciRevNum_eq, reverseSort_neg_iff] at h1 h2 ⊢
  exact num_pos_trans _ _ _ h1 h2

theorem none_asym_g : ∀ a b : Str, noneSort a b < 0 → ¬ noneSort b a < 0 := by
  intro a b h1
  unfold noneSort at h1
  omega

/-! ### Hereditary consistency of the registry comparators -/

mutual

theorem cmpOk_of_global (f : Cmp)
    (Ha : ∀ a b : Str, a ≠ b → f a b < 0 → ¬ f b a < 0)
    (Ht : ∀ a b c : Str, f a b < 0 → f b c < 0 → f a c < 0) :
    ∀ v : Json, CmpOk f v
  | .arr vs => by
      rw [CmpOk]
      exact cmpOkList_of_global f Ha Ht vs
  | .obj ps => by
      rw [CmpOk]
      exact ⟨⟨fun a _ b _ hne h1 => Ha a b hne h1, fun a _ b _ c _ => Ht a b c⟩,
        cmpOkPairs_of_global f Ha Ht ps⟩
  | .null => by rw [CmpOk] <;> simp
  | .bool b => by rw [CmpOk] <;> simp
  | .num n => by rw [CmpOk] <;> simp
  | .str s => by rw [CmpOk] <;> simp

theorem cmpOkList_of_global (f : Cmp)
    (Ha : ∀ a b : Str, a ≠ b → f a b < 0 → ¬ f b a < 0)
    (Ht : ∀ a b c : Str, f a b < 0 → f b c < 0 → f a c < 0) :
    ∀ vs : List Json, CmpOkList f vs
  | [] => by rw [CmpOkList]; trivial
  | v :: vs => by
      rw [CmpOkList]
      exact ⟨cmpOk_of_global f Ha Ht v, cmpOkList_of_global f Ha Ht vs⟩

theorem cmpOkPairs_of_global (f : Cmp)
    (Ha : ∀ a b : Str, a ≠ b → f a b < 0 → ¬ f b a < 0)
    (Ht : ∀ a b c : Str, f a b < 0 → f b c < 0 → f a c < 0) :
    ∀ ps : List (Str × Json), CmpOkPairs f ps
  | [] => by rw [CmpOkPairs]; trivial
  | (k, v) :: ps => by
      rw [CmpOkPairs]
      exact ⟨cmpOk_of_global f Ha Ht v, cmpOkPairs_of_global f Ha Ht ps⟩

end

mutual

theorem cmpOk_ciNum : ∀ v : Json, hlowuniq v = true →
    CmpOk (caseInsensitiveSort numericSort) v
  | .arr vs, h => by
      rw [hlowuniq] at h
      rw [CmpOk]
      exact cmpOkList_ciNum vs h
  | .obj ps, h => by
      rw [hlowuniq, Bool.and_eq_true] at h
      have hinj : ∀ a ∈ keysOf ps, ∀ b ∈ keysOf ps, lowerStr a = lowerStr b → a = b :=
        fun a ha b hb => List.inj_on_of_nodup_map ((nodupB_iff _).mp h.1) ha hb
      rw [CmpOk]
      refine ⟨⟨?_, fun a _ b _ c _ => cinum_trans_g a b c⟩, cmpOkPairs_ciNum ps h.2⟩
      intro a ha b hb hne h1
      exact cinum_asym_fold a b (fun he => hne (hinj a ha b hb he)) h1
  | .null, _ => by rw [CmpOk] <;> simp
  | .bool b, _ => by rw [CmpOk] <;> simp
  | .num n, _ => by rw [CmpOk] <;> simp
  | .str s, _ => by rw [CmpOk] <;> simp

theorem cmpOkList_ciNum : ∀ vs : List Json, hlowuniqList vs = true →
    CmpOkList (caseInsensitiveSort numericSort) vs
  | [], _ => by rw [CmpOkList]; trivial
  | v :: vs, h => by
      rw [hlowuniqList, Bool.and_eq_true] at h
      rw [CmpOkList]
      exact ⟨cmpOk_ciNum v h.1, cmpOkList_ciNum vs h.2⟩

theorem cmpOkPairs_ciNum : ∀ ps : List (Str × Json), hlowuniqPairs ps = true →
    CmpOkPairs (caseInsensitiveSort numericSort) ps
  | [], _ => by rw [CmpOkPairs]; trivial
  | (k, v) :: ps, h => by
      rw [hlowuniqPairs, Bool.and_eq_true] at h
      rw [CmpOkPairs]
      exact ⟨cmpOk_ciNum v h.1, cmpOkPairs_ciNum ps h.2⟩

end

theorem categorySortFunctions_spec (s : String) (g : Cmp)
    (hg : categorySortFunctions s = some g) (hs : s ≠ "caseInsensitiveNumeric") :
    (∀ a b : Str, a ≠ b → g a b < 0 → ¬ g b a < 0) ∧
    (∀ a b c : Str, g a b < 0 → g b c < 0 → g a c < 0) := by
  unfold categorySortFunctions at hg
  split at hg
  · cases Option.some.inj hg
    exact ⟨fun a b _ => cilex_asym_g a b, cilex_trans_g⟩
  · exact absurd rfl hs
  · cases Option.some.inj hg
    exact ⟨fun a b _ => cirevlex_asym_g a b, cirevlex_trans_g⟩
  · cases Option.some.inj hg
    exact ⟨fun a b _ => cirevnum_asym_g a b, cirevnum_trans_g⟩
  · cases Option.some.inj hg
    exact ⟨fun a b _ => lex_asym_g a b, lex_trans_g⟩
  · cases Option.some.inj hg
    exact ⟨num_asym_g, fun a b c => numericSort_trans⟩
  · cases Option.some.inj hg
    exact ⟨fun a b _ => revlex_asym_g a b, revlex_trans_g⟩
  · cases Option.some.inj hg
    exact ⟨revnum_asym_g, revnum_trans_g⟩
  · cases Option.some.inj hg
    exact ⟨fun a b _ => none_asym_g a b, fun a b c h1 => by
      unfold noneSort at h1
      omega⟩
  · cases hg

theorem createSortFunction_cmpOk (so : Option String) (v : Json)
    (hci : so = some "caseInsensitiveNumeric" → hlowuniq v = true) :
    CmpOk (createSortFunction so) v := by
  cases so with
  | none => exact cmpOk_of_global _ (fun a b _ => lex_asym_g a b) lex_trans_g v
  | some s =>
      by_cases hs : s = "caseInsensitiveNumeric"
      · subst hs
        have he : createSortFunction (some "caseInsensitiveNumeric") =
            caseInsensitiveSort numericSort := rfl
        rw [he]
        exact cmpOk_ciNum v (hci rfl)
      · unfold createSortFunction
        split
        · exact cmpOk_of_global _ (fun a b _ => lex_asym_g a b) lex_trans_g v
        · exact cmpOk_of_global _ (fun a b _ => lex_asym_g a b) lex_trans_g v
        · rename_i s' hne' heq
          cases hr : categorySortFunctions s' with
          | none =>
              exact cmpOk_of_global _ (fun a b _ => lex_asym_g a b) lex_trans_g v
          | some g =>
              have hs' : s' ≠ "caseInsensitiveNumeric" := by
                cases Option.some.inj heq
                exact hs
              have hgood := categorySortFunctions_spec s' g hr hs'
              exact cmpOk_of_global _ hgood.1 hgood.2 v

/-! ### Idempotence of the always-recursive sorter on unique trees -/

theorem insertSorted_map_vals (f : Cmp) (g : Json → Json) (x : Str × Json) :
    ∀ l : List (Str × Json),
      insertSorted (fun u v => f u.1 v.1) (x.1, g x.2)
          (l.map (fun kv => (kv.1, g kv.2))) =
        (insertSorted (fun u v => f u.1 v.1) x l).map (fun kv => (kv.1, g kv.2))
  | [] => rfl
  | y :: ys => by
      rw [List.map_cons, insertSorted, insertSorted]
      by_cases hc : f x.1 y.1 < 0
      · rw [if_pos hc, if_pos hc, List.map_cons, List.map_cons]
      · rw [if_neg hc, if_neg hc, List.map_cons, insertSorted_map_vals f g x ys]

theorem jsSort_map_vals_aux (f : Cmp) (g : Json → Json) :
    ∀ (l acc : List (Str × Json)),
      (l.map (fun kv => (kv.1, g kv.2))).foldl
          (fun a x => insertSorted (fun u v => f u.1 v.1) x a)
          (acc.map (fun kv => (kv.1, g kv.2))) =
        (l.foldl (fun a x => insertSorted (fun u v => f u.1 v.1) x a) acc).map
          (fun kv => (kv.1, g kv.2))
  | [], acc => rfl
  | x :: l, acc => by
      rw [List.map_cons, List.foldl_cons, List.foldl_cons,
        insertSorted_map_vals f g x acc]
      exact jsSort_map_vals_aux f g l (insertSorted (fun u v => f u.1 v.1) x acc)

theorem jsSort_map_vals (f : Cmp) (g : Json → Json) (l : List (Str × Json)) :
    jsSort (fun u v => f u.1 v.1) (l.map (fun kv => (kv.1, g kv.2))) =
      (jsSort (fun u v => f u.1 v.1) l).map (fun kv => (kv.1, g kv.2)) := by
  have := jsSort_map_vals_aux f g l []
  simpa [jsSort] using this

theorem huniqPairs_of_perm {ps qs : List (Str × Json)} (h : ps.Perm qs)
    (hu : huniqPairs ps = true) : huniqPairs qs = true := by
  rw [huniqPairs_forall] at hu ⊢
  intro kv hm
  exact hu kv (h.mem_iff.mpr hm)

theorem keysOf_sortObjCPairs (f : Cmp) (ps : List (Str × Json)) :
    keysOf (sortObjCPairs f ps) = keysOf ps := by
  rw [sortObjCPairs_eq_map, keysOf_map_values]

mutual

theorem sortObjC_huniq (f : Cmp) : ∀ v : Json, huniq v = true →
    huniq (sortObjC f v) = true
  | .obj ps, hu => by
      obtain ⟨hnd, hup⟩ := huniq_obj_parts hu
      have hperm := jsSort_perm (fun u v : Str × Json => f u.1 v.1) (sortObjCPairs f ps)
      show huniq (.obj (jsSort (fun u v => f u.1 v.1) (sortObjCPairs f ps))) = true
      rw [huniq, Bool.and_eq_true]
      constructor
      · rw [nodupB_iff]
        refine ((hperm.map Prod.fst).nodup_iff).mpr ?_
        show (keysOf (sortObjCPairs f ps)).Nodup
        rw [keysOf_sortObjCPairs f ps]
        exact hnd
      · exact huniqPairs_of_perm hperm.symm (sortObjCPairs_huniq f ps hup)
  | .arr vs, hu => by
      show huniq (.arr (sortObjCList f vs)) = true
      rw [huniq]
      exact sortObjCList_huniq f vs hu
  | .null, _ => rfl
  | .bool b, _ => rfl
  | .num n, _ => rfl
  | .str s, _ => rfl

theorem sortObjCList_huniq (f : Cmp) : ∀ vs : List Json, huniqList vs = true →
    huniqList (sortObjCList f vs) = true
  | [], _ => rfl
  | v :: vs, hu => by
      rw [huniqList, Bool.and_eq_true] at hu
      rw [sortObjCList, sortObjC_of_prim, huniqList, sortObjC_huniq f v hu.1,
        sortObjCList_huniq f vs hu.2]
      rfl

theorem sortObjCPairs_huniq (f : Cmp) : ∀ ps : List (Str × Json), huniqPairs ps = true →
    huniqPairs (sortObjCPairs f ps) = true
  | [], _ => rfl
  | (k, v) :: ps, hu => by
      rw [huniqPairs, Bool.and_eq_true] at hu
      rw [sortObjCPairs, sortObjC_of_prim, huniqPairs, sortObjC_huniq f v hu.1,
        sortObjCPairs_huniq f ps hu.2]
      rfl

end

mutual

theorem sortObjC_idem (f : Cmp) : ∀ v : Json, huniq v = true → CmpOk f v →
    sortObjC f (sortObjC f v) = sortObjC f v
  | .obj ps, hu, hok => by
      obtain ⟨hnd, hup⟩ := huniq_obj_parts hu
      rw [CmpOk] at hok
      obtain ⟨⟨hasym, htrans⟩, hpairs⟩ := hok
      show Json.obj
          (jsSort (fun u v => f u.1 v.1)
            (sortObjCPairs f (jsSort (fun u v => f u.1 v.1) (sortObjCPairs f ps)))) =
        Json.obj (jsSort (fun u v => f u.1 v.1) (sortObjCPairs f ps))
      have hstep1 : sortObjCPairs f (jsSort (fun u v => f u.1 v.1) (sortObjCPairs f ps)) =
          jsSort (fun u v => f u.1 v.1) (sortObjCPairs f ps) := by
        rw [sortObjCPairs_eq_map f
          (jsSort (fun u v => f u.1 v.1) (sortObjCPairs f ps))]
        rw [← jsSort_map_vals f (sortObjC f) (sortObjCPairs f ps)]
        rw [← sortObjCPairs_eq_map f (sortObjCPairs f ps)]
        rw [sortObjCPairs_idem f ps hup hpairs]
      rw [hstep1]
      have hkeys : keysOf (sortObjCPairs f ps) = keysOf ps := keysOf_sortObjCPairs f ps
      have hndL : (keysOf (sortObjCPairs f ps)).Nodup := by rw [hkeys]; exact hnd
      have hndP : (sortObjCPairs f ps).Nodup := List.Nodup.of_map Prod.fst hndL
      have hmemk : ∀ x : Str × Json, x ∈ sortObjCPairs f ps → x.1 ∈ keysOf ps := by
        intro x hx
        rw [← hkeys]
        exact List.mem_map_of_mem Prod.fst hx
      rw [jsSort_idem (fun u v => f u.1 v.1) (fun kv => kv ∈ sortObjCPairs f ps)
        (fun x y hx hy hne h1 =>
          hasym x.1 (hmemk x hx) y.1 (hmemk y hy)
            (fun he => hne (List.inj_on_of_nodup_map hndL hx hy he)) h1)
        (fun x y z hx hy hz h1 h2 =>
          htrans x.1 (hmemk x hx) y.1 (hmemk y hy) z.1 (hmemk z hz) h1 h2)
        (sortObjCPairs f ps) (fun z hz => hz) hndP]
  | .arr vs, hu, hok => by
      rw [CmpOk] at hok
      show Json.arr (sortObjCList f (sortObjCList f vs)) = Json.arr (sortObjCList f vs)
      rw [sortObjCList_idem f vs hu hok]
  | .null, _, _ => rfl
  | .bool b, _, _ => rfl
  | .num n, _, _ => rfl
  | .str s, _, _ => rfl

theorem sortObjCList_idem (f : Cmp) : ∀ vs : List Json,
    huniqList vs = true → CmpOkList f vs →
    sortObjCList f (sortObjCList f vs) = sortObjCList f vs
  | [], _, _ => rfl
  | v :: vs, hu, hok => by
      rw [huniqList, Bool.and_eq_true] at hu
      rw [CmpOkList] at hok
      show (if isObjType (if isObjType v then sortObjC f v else v)
          then sortObjC f (if isObjType v then sortObjC f v else v)
          else (if isObjType v then sortObjC f v else v)) ::
          sortObjCList f (sortObjCList f vs) = _
      rw [sortObjC_of_prim, sortObjC_of_prim, sortObjC_idem f v hu.1 hok.1,
        sortObjCList_idem f vs hu.2 hok.2, sortObjCList, sortObjC_of_prim]

theorem sortObjCPairs_idem (f : Cmp) : ∀ ps : List (Str × Json),
    huniqPairs ps = true → CmpOkPairs f ps →
    sortObjCPairs f (sortObjCPairs f ps) = sortObjCPairs f ps
  | [], _, _ => rfl
  | (k, v) :: ps, hu, hok => by
      rw [huniqPairs, Bool.and_eq_true] at hu
      rw [CmpOkPairs] at hok
      show (k, if isObjType (if isObjType v then sortObjC f v else v)
          then sortObjC f (if isObjType v then sortObjC f v else v)
          else (if isObjType v then sortObjC f v else v)) ::
          sortObjCPairs f (sortObjCPairs f ps) = _
      rw [sortObjC_of_prim, sortObjC_of_prim, sortObjC_idem f v hu.1 hok.1,
        sortObjCPairs_idem f ps hu.2 hok.2, sortObjCPairs, sortObjC_of_prim]

end

/-- Claim C6 (amended): the filePattern engine is idempotent on every
duplicate-free document for every options bag — file pattern, path and
sort policy — EXCEPT that under policy `caseInsensitiveNumeric` (whose
comparator is not a consistent comparison function when two distinct keys
share a lower-casing) idempotence is guaranteed only when no object of the
document contains two distinct keys with identical lower-case foldings. -/
theorem C6_idem_amended (fp pat : Str) (so : Option String) (v : Json)
    (hu : huniq v = true)
    (hci : so = some "caseInsensitiveNumeric" → hlowuniq v = true) :
    processJsonCVal fp pat so (processJsonCVal fp pat so v) =
      processJsonCVal fp pat so v := by
  unfold processJsonCVal
  split
  · exact jsParse_eq_self _ (jsParse_huniq v)
  · rw [jsParse_eq_self v hu, dedupC_eq_self v hu]
    have hs : huniq (sortObjC (createSortFunction so) v) = true :=
      sortObjC_huniq _ v hu
    rw [jsParse_eq_self _ hs, dedupC_eq_self _ hs]
    exact sortObjC_idem _ v hu (createSortFunction_cmpOk so v hci)

/-- Claim C6, witness: the amended theorem applied to the document
`{"b":1,"A":2}` (whose lower-cased keys are distinct) under the very
policy of the counterexample, `caseInsensitiveNumeric`. -/
theorem C6_idem_amended_witness :
    processJsonCVal ("x.json".data) [] (some "caseInsensitiveNumeric")
        (processJsonCVal ("x.json".data) [] (some "caseInsensitiveNumeric")
          (.obj [("b".data, .num 1), ("A".data, .num 2)])) =
      processJsonCVal ("x.json".data) [] (some "caseInsensitiveNumeric")
        (.obj [("b".data, .num 1), ("A".data, .num 2)]) :=
  C6_idem_amended ("x.json".data) [] (some "caseInsensitiveNumeric")
    (.obj [("b".data, .num 1), ("A".data, .num 2)]) (by decide) (fun _ => by decide)

end RmDupJson
